/-
Verification of the nested-structure transformation layer of
rllib/utils/spaces/space_utils.py.

Shallow embedding conventions:
* numpy floating scalars are modelled by `F`: either a finite rational or one
  of the three non-finite values +inf, -inf, NaN, with IEEE-754 rules for the
  arithmetic the source uses (+, -, *, /, maximum, minimum, clip);
* numpy ndarrays are modelled by `Arr`, a finitely-branching tree of rational
  scalars (axis nesting); `np.stack` adds an axis, `np.concatenate` joins
  along axis 0, basic integer indexing picks an element of axis 0;
* nested python container structures (dm_tree structures) are modelled by
  `Struct`: a leaf, a tuple node, or a dict node holding a key-value list.
  Python dicts compare equal regardless of key order, and both gymnasium and
  dm_tree traverse dict keys in ascending sorted order, so a dict is
  represented here by its canonical (ascending-key) entry list; traversals
  read entries in the stored order;
* gymnasium spaces are modelled by `GSpace` (Box / Discrete / MultiDiscrete
  leaves and Dict / Tuple composites).  Box bounds are scalar `F` values (the
  elementwise-uniform case); `bounded_below` / `bounded_above` are derived
  from the bounds exactly as numpy computes them;
* python exceptions are modelled by `Except Err`; the distinct failure sites
  of the source map to distinct `Err` constructors.
-/
import Mathlib

namespace SpaceUtils

/-! ## IEEE-style scalar floats over the rationals -/

/-- A numpy floating scalar: finite rational, +inf, -inf, or NaN. -/
inductive F : Type where
  | fin (q : ℚ)
  | pinf
  | ninf
  | nan
deriving DecidableEq, Repr

/-- IEEE negation. -/
def negF : F → F
  | .fin q => .fin (-q)
  | .pinf => .ninf
  | .ninf => .pinf
  | .nan => .nan

/-- IEEE addition (inf + -inf = NaN, NaN propagates). -/
def addF : F → F → F
  | .nan, _ => .nan
  | _, .nan => .nan
  | .pinf, .ninf => .nan
  | .ninf, .pinf => .nan
  | .pinf, _ => .pinf
  | _, .pinf => .pinf
  | .ninf, _ => .ninf
  | _, .ninf => .ninf
  | .fin a, .fin b => .fin (a + b)

/-- IEEE subtraction, a - b = a + (-b). -/
def subF (a b : F) : F := addF a (negF b)

/-- IEEE multiplication (inf * 0 = NaN, NaN propagates). -/
def mulF : F → F → F
  | .nan, _ => .nan
  | _, .nan => .nan
  | .fin a, .fin b => .fin (a * b)
  | .pinf, .pinf => .pinf
  | .pinf, .ninf => .ninf
  | .ninf, .pinf => .ninf
  | .ninf, .ninf => .pinf
  | .pinf, .fin b => if 0 < b then .pinf else if b < 0 then .ninf else .nan
  | .fin a, .pinf => if 0 < a then .pinf else if a < 0 then .ninf else .nan
  | .ninf, .fin b => if 0 < b then .ninf else if b < 0 then .pinf else .nan
  | .fin a, .ninf => if 0 < a then .ninf else if a < 0 then .pinf else .nan

/-- IEEE division (x/0 = +-inf or NaN, x/inf = 0, inf/inf = NaN). -/
def divF : F → F → F
  | .nan, _ => .nan
  | _, .nan => .nan
  | .fin a, .fin b =>
    if b = 0 then (if a = 0 then .nan else if 0 < a then .pinf else .ninf)
    else .fin (a / b)
  | .fin _, .pinf => .fin 0
  | .fin _, .ninf => .fin 0
  | .pinf, .fin b => if b < 0 then .ninf else .pinf
  | .ninf, .fin b => if b < 0 then .pinf else .ninf
  | .pinf, .pinf => .nan
  | .pinf, .ninf => .nan
  | .ninf, .pinf => .nan
  | .ninf, .ninf => .nan

/-- np.maximum: NaN propagates, otherwise the larger value. -/
def maxF : F → F → F
  | .nan, _ => .nan
  | _, .nan => .nan
  | .pinf, _ => .pinf
  | _, .pinf => .pinf
  | .ninf, b => b
  | a, .ninf => a
  | .fin a, .fin b => .fin (max a b)

/-- np.minimum: NaN propagates, otherwise the smaller value. -/
def minF : F → F → F
  | .nan, _ => .nan
  | _, .nan => .nan
  | .ninf, _ => .ninf
  | _, .ninf => .ninf
  | .pinf, b => b
  | a, .pinf => a
  | .fin a, .fin b => .fin (min a b)

/-- np.clip(a, lo, hi) = np.minimum(np.maximum(a, lo), hi). -/
def clipF (a lo hi : F) : F := minF (maxF a lo) hi

/-! ## ndarrays -/

/-- An ndarray value: a scalar (0-d) or a list of subarrays along axis 0. -/
inductive Arr : Type where
  | scalar (q : ℚ)
  | vec (xs : List Arr)
deriving Repr

mutual
/-- Equality test on arrays. -/
def arrBeq : Arr → Arr → Bool
  | .scalar a, .scalar b => a == b
  | .vec xs, .vec ys => arrListBeq xs ys
  | _, _ => false
/-- Equality test on lists of arrays. -/
def arrListBeq : List Arr → List Arr → Bool
  | [], [] => true
  | x :: xs, y :: ys => arrBeq x y && arrListBeq xs ys
  | _, _ => false
end

/-- Shape of an array, derived from the nesting structure (a ragged tree
reports the shape of its first branch; real ndarrays are never ragged). -/
def shapeA : Arr → List ℕ
  | .scalar _ => []
  | .vec [] => [0]
  | .vec (x :: xs) => (xs.length + 1) :: shapeA x

mutual
/-- Whether every element of the array equals the given scalar. -/
def allEqA : Arr → ℚ → Bool
  | .scalar q, v => q == v
  | .vec xs, v => allEqListA xs v
/-- allEqA over a list of arrays. -/
def allEqListA : List Arr → ℚ → Bool
  | [], _ => true
  | x :: xs, v => allEqA x v && allEqListA xs v
end

/-- np.full(dims, v): the rectangular array of the given dimensions with every
element equal to v. -/
def mkFull : List ℕ → ℚ → Arr
  | [], v => .scalar v
  | n :: ns, v => .vec (List.replicate n (mkFull ns v))

/-- The predicate "this array has the given numpy shape".  Unlike `shapeA`
this is meaningful for dimensions of size 0 (any trailing dims are allowed
below an empty axis, as in numpy). -/
def hasShapeA : Arr → List ℕ → Bool
  | .scalar _, [] => true
  | .scalar _, _ :: _ => false
  | .vec _, [] => false
  | .vec xs, n :: ns => xs.length == n && xs.all (fun x => hasShapeA x ns)

theorem hasShapeA_mkFull (dims : List ℕ) (v : ℚ) : hasShapeA (mkFull dims v) dims = true := by
  induction dims with
  | nil => rfl
  | cons n ns ih =>
    simp [mkFull, hasShapeA, List.all_eq_true]
    exact Or.inr ih

theorem allEqA_mkFull (dims : List ℕ) (v : ℚ) : allEqA (mkFull dims v) v = true := by
  induction dims with
  | nil => simp [mkFull, allEqA]
  | cons n ns ih =>
    simp only [mkFull, allEqA]
    induction n with
    | zero => rfl
    | succ m ihm => simpa [List.replicate_succ, allEqListA, ihm] using ih

/-! ## Nested structures (dm_tree) -/

/-- Errors raised by the embedded operations; each constructor corresponds to
one failure site of the source (python exception).  The names follow the
specification glossary where it names the error. -/
inductive Err : Type where
  | emptyBatch
  | structureMismatch
  | arityMismatch
  | leafShapeMismatch
  | typeError
  | indexError
  | invalidBatchTimeCombination
deriving DecidableEq, Repr

/-- A nested python container structure: a leaf value, a tuple of structures,
or a dict of key-value entries (stored in the canonical ascending-key order
used by dm_tree and gymnasium). -/
inductive Struct (α : Type) : Type where
  | leaf (a : α)
  | tup (ts : List (Struct α))
  | dict (es : List (String × Struct α))
deriving Repr

/-- Structural induction principle for Struct with membership hypotheses. -/
def structInd {α : Type} {motive : Struct α → Prop}
    (hleaf : ∀ a, motive (.leaf a))
    (htup : ∀ ts, (∀ t ∈ ts, motive t) → motive (.tup ts))
    (hdict : ∀ es, (∀ e ∈ es, motive e.2) → motive (.dict es)) :
    ∀ s, motive s
  | .leaf a => hleaf a
  | .tup ts => htup ts (fun t ht => structInd hleaf htup hdict t)
  | .dict es => hdict es (fun e he => structInd hleaf htup hdict e.2)
termination_by s => sizeOf s
decreasing_by
  · have := List.sizeOf_lt_of_mem ht
    simp only [Struct.tup.sizeOf_spec]
    omega
  · have := List.sizeOf_lt_of_mem he
    obtain ⟨k, v⟩ := e
    simp only [Struct.dict.sizeOf_spec, Prod.mk.sizeOf_spec] at *
    omega

mutual
/-- tree.flatten: the leaves of a structure in depth-first order (tuple
positions ascending; dict entries in their canonical stored order). -/
def treeFlatten {α : Type} : Struct α → List α
  | .leaf a => [a]
  | .tup ts => flattenTup ts
  | .dict es => flattenDict es
/-- treeFlatten over the elements of a tuple node. -/
def flattenTup {α : Type} : List (Struct α) → List α
  | [] => []
  | t :: ts => treeFlatten t ++ flattenTup ts
/-- treeFlatten over the entries of a dict node. -/
def flattenDict {α : Type} : List (String × Struct α) → List α
  | [] => []
  | (_, v) :: es => treeFlatten v ++ flattenDict es
end

mutual
/-- tree.unflatten_as, worker: rebuild a structure shaped like the template
from a stream of leaf values, returning the rebuilt structure and the unused
remainder of the stream; fails when the stream is too short. -/
def unflattenAux {α β : Type} : Struct α → List β → Except Err (Struct β × List β)
  | .leaf _, [] => .error .arityMismatch
  | .leaf _, x :: r => .ok (.leaf x, r)
  | .tup ts, xs =>
    match unflattenTup ts xs with
    | .ok (us, r) => .ok (.tup us, r)
    | .error e => .error e
  | .dict es, xs =>
    match unflattenDict es xs with
    | .ok (ps, r) => .ok (.dict ps, r)
    | .error e => .error e
/-- unflattenAux over the elements of a tuple node. -/
def unflattenTup {α β : Type} : List (Struct α) → List β → Except Err (List (Struct β) × List β)
  | [], xs => .ok ([], xs)
  | t :: ts, xs =>
    match unflattenAux t xs with
    | .ok (u, r) =>
      match unflattenTup ts r with
      | .ok (us, r') => .ok (u :: us, r')
      | .error e => .error e
    | .error e => .error e
/-- unflattenAux over the entries of a dict node. -/
def unflattenDict {α β : Type} : List (String × Struct α) → List β → Except Err (List (String × Struct β) × List β)
  | [], xs => .ok ([], xs)
  | (k, v) :: es, xs =>
    match unflattenAux v xs with
    | .ok (u, r) =>
      match unflattenDict es r with
      | .ok (ps, r') => .ok ((k, u) :: ps, r')
      | .error e => .error e
    | .error e => .error e
end

/-- tree.unflatten_as: rebuild a structure shaped like the template from the
exact list of leaf values; fails when the list is too short or too long. -/
def unflattenAs {α β : Type} (s : Struct α) (xs : List β) : Except Err (Struct β) :=
  match unflattenAux s xs with
  | .ok (t, []) => .ok t
  | .ok (_, _ :: _) => .error .arityMismatch
  | .error e => .error e

mutual
/-- Same-structure test of dm_tree: equal container kinds, tuple lengths,
dict keys at every node (leaf values unconstrained). -/
def sameTopo {α β : Type} : Struct α → Struct β → Bool
  | .leaf _, .leaf _ => true
  | .tup ts, .tup us => sameTopoTup ts us
  | .dict es, .dict fs => sameTopoDict es fs
  | _, _ => false
/-- sameTopo over tuple elements. -/
def sameTopoTup {α β : Type} : List (Struct α) → List (Struct β) → Bool
  | [], [] => true
  | t :: ts, u :: us => sameTopo t u && sameTopoTup ts us
  | _, _ => false
/-- sameTopo over dict entries. -/
def sameTopoDict {α β : Type} : List (String × Struct α) → List (String × Struct β) → Bool
  | [], [] => true
  | (k, v) :: es, (k', v') :: fs => k == k' && sameTopo v v' && sameTopoDict es fs
  | _, _ => false
end

mutual
/-- Replace every leaf value of a structure, keeping the topology. -/
def mapLeaves {α β : Type} (f : α → β) : Struct α → Struct β
  | .leaf a => .leaf (f a)
  | .tup ts => .tup (mapLeavesTup f ts)
  | .dict es => .dict (mapLeavesDict f es)
/-- mapLeaves over tuple elements. -/
def mapLeavesTup {α β : Type} (f : α → β) : List (Struct α) → List (Struct β)
  | [] => []
  | t :: ts => mapLeaves f t :: mapLeavesTup f ts
/-- mapLeaves over dict entries. -/
def mapLeavesDict {α β : Type} (f : α → β) : List (String × Struct α) → List (String × Struct β)
  | [] => []
  | (k, v) :: es => (k, mapLeaves f v) :: mapLeavesDict f es
end

theorem treeFlatten_mapLeaves {α β : Type} (f : α → β) :
    ∀ s : Struct α, treeFlatten (mapLeaves f s) = (treeFlatten s).map f := by
  intro s
  induction s using structInd with
  | hleaf a => simp [mapLeaves, treeFlatten]
  | htup ts ih =>
    simp only [mapLeaves, treeFlatten]
    induction ts with
    | nil => simp [mapLeavesTup, flattenTup]
    | cons t ts iht =>
      simp only [mapLeavesTup, flattenTup, List.map_append]
      rw [ih t (by simp), iht (fun u hu => ih u (by simp [hu]))]
  | hdict es ih =>
    simp only [mapLeaves, treeFlatten]
    induction es with
    | nil => simp [mapLeavesDict, flattenDict]
    | cons e es ihe =>
      obtain ⟨k, v⟩ := e
      simp only [mapLeavesDict, flattenDict, List.map_append]
      rw [ih (k, v) (by simp), ihe (fun u hu => ih u (by simp [hu]))]

theorem sameTopo_mapLeaves_left {α β γ : Type} (f : α → γ) :
    ∀ (s : Struct α) (t : Struct β), sameTopo (mapLeaves f s) t = sameTopo s t := by
  intro s
  induction s using structInd with
  | hleaf a => intro t; cases t <;> simp [mapLeaves, sameTopo]
  | htup ts ih =>
    intro t
    cases t with
    | leaf b => simp [mapLeaves, sameTopo]
    | dict fs => simp [mapLeaves, sameTopo]
    | tup us =>
      simp only [mapLeaves, sameTopo]
      induction ts generalizing us with
      | nil => cases us <;> simp [mapLeavesTup, sameTopoTup]
      | cons t ts iht =>
        cases us with
        | nil => simp [mapLeavesTup, sameTopoTup]
        | cons u us' =>
          simp only [mapLeavesTup, sameTopoTup]
          rw [ih t (by simp), iht (fun x hx => ih x (by simp [hx]))]
  | hdict es ih =>
    intro t
    cases t with
    | leaf b => simp [mapLeaves, sameTopo]
    | tup us => simp [mapLeaves, sameTopo]
    | dict fs =>
      simp only [mapLeaves, sameTopo]
      induction es generalizing fs with
      | nil => cases fs <;> simp [mapLeavesDict, sameTopoDict]
      | cons e es ihe =>
        obtain ⟨k, v⟩ := e
        cases fs with
        | nil => simp [mapLeavesDict, sameTopoDict]
        | cons g fs' =>
          obtain ⟨k', v'⟩ := g
          simp only [mapLeavesDict, sameTopoDict]
          rw [ih (k, v) (by simp), ihe (fun x hx => ih x (by simp [hx]))]

theorem sameTopo_refl {α : Type} : ∀ s : Struct α, sameTopo s s = true := by
  intro s
  induction s using structInd with
  | hleaf a => simp [sameTopo]
  | htup ts ih =>
    simp only [sameTopo]
    induction ts with
    | nil => simp [sameTopoTup]
    | cons t ts iht =>
      simp only [sameTopoTup, Bool.and_eq_true]
      exact ⟨ih t (by simp), iht (fun x hx => ih x (by simp [hx]))⟩
  | hdict es ih =>
    simp only [sameTopo]
    induction es with
    | nil => simp [sameTopoDict]
    | cons e es ihe =>
      obtain ⟨k, v⟩ := e
      simp only [sameTopoDict, Bool.and_eq_true]
      exact ⟨⟨by simp, ih (k, v) (by simp)⟩, ihe (fun x hx => ih x (by simp [hx]))⟩

theorem sameTopo_symm {α β : Type} :
    ∀ (s : Struct α) (t : Struct β), sameTopo s t = true → sameTopo t s = true := by
  intro s
  induction s using structInd with
  | hleaf a => intro t h; cases t <;> simp_all [sameTopo]
  | htup ts ih =>
    intro t h
    cases t with
    | leaf b => simp [sameTopo] at h
    | dict fs => simp [sameTopo] at h
    | tup us =>
      simp only [sameTopo] at h ⊢
      induction ts generalizing us with
      | nil => cases us with
        | nil => simp [sameTopoTup]
        | cons u us' => simp [sameTopoTup] at h
      | cons t ts iht =>
        cases us with
        | nil => simp [sameTopoTup] at h
        | cons u us' =>
          simp only [sameTopoTup, Bool.and_eq_true] at h ⊢
          exact ⟨ih t (by simp) u h.1, iht (fun x hx => ih x (by simp [hx])) us' h.2⟩
  | hdict es ih =>
    intro t h
    cases t with
    | leaf b => simp [sameTopo] at h
    | tup us => simp [sameTopo] at h
    | dict fs =>
      simp only [sameTopo] at h ⊢
      induction es generalizing fs with
      | nil => cases fs with
        | nil => simp [sameTopoDict]
        | cons g fs' => simp [sameTopoDict] at h
      | cons e es ihe =>
        obtain ⟨k, v⟩ := e
        cases fs with
        | nil => simp [sameTopoDict] at h
        | cons g fs' =>
          obtain ⟨k', v'⟩ := g
          simp only [sameTopoDict, Bool.and_eq_true] at h ⊢
          exact ⟨⟨by simp [beq_iff_eq.mp h.1.1], ih (k, v) (by simp) v' h.1.2⟩,
                 ihe (fun x hx => ih x (by simp [hx])) fs' h.2⟩

theorem sameTopo_trans {α β γ : Type} :
    ∀ (s : Struct α) (t : Struct β) (u : Struct γ),
      sameTopo s t = true → sameTopo t u = true → sameTopo s u = true := by
  intro s
  induction s using structInd with
  | hleaf a =>
    intro t u h1 h2
    cases t with
    | leaf b =>
      cases u with
      | leaf c => simp [sameTopo]
      | tup vs => simp [sameTopo] at h2
      | dict gs => simp [sameTopo] at h2
    | tup us => simp [sameTopo] at h1
    | dict fs => simp [sameTopo] at h1
  | htup ts ih =>
    intro t u h1 h2
    cases t with
    | leaf b => simp [sameTopo] at h1
    | dict fs => simp [sameTopo] at h1
    | tup us =>
      cases u with
      | leaf c => simp [sameTopo] at h2
      | dict gs => simp [sameTopo] at h2
      | tup vs =>
        simp only [sameTopo] at h1 h2 ⊢
        induction ts generalizing us vs with
        | nil =>
          cases us with
          | nil => cases vs with
            | nil => simp [sameTopoTup]
            | cons v vs' => simp [sameTopoTup] at h2
          | cons u us' => simp [sameTopoTup] at h1
        | cons t ts iht =>
          cases us with
          | nil => simp [sameTopoTup] at h1
          | cons u us' =>
            cases vs with
            | nil => simp [sameTopoTup] at h2
            | cons v vs' =>
              simp only [sameTopoTup, Bool.and_eq_true] at h1 h2 ⊢
              refine ⟨ih t (by simp) u v h1.1 h2.1, ?_⟩
              exact iht (fun x hx => ih x (by simp [hx])) us' h1.2 vs' h2.2
  | hdict es ih =>
    intro t u h1 h2
    cases t with
    | leaf b => simp [sameTopo] at h1
    | tup us => simp [sameTopo] at h1
    | dict fs =>
      cases u with
      | leaf c => simp [sameTopo] at h2
      | tup vs => simp [sameTopo] at h2
      | dict gs =>
        simp only [sameTopo] at h1 h2 ⊢
        induction es generalizing fs gs with
        | nil =>
          cases fs with
          | nil => cases gs with
            | nil => simp [sameTopoDict]
            | cons g gs' => simp [sameTopoDict] at h2
          | cons f fs' => simp [sameTopoDict] at h1
        | cons e es ihe =>
          obtain ⟨k, v⟩ := e
          cases fs with
          | nil => simp [sameTopoDict] at h1
          | cons f fs' =>
            obtain ⟨k1, v1⟩ := f
            cases gs with
            | nil => simp [sameTopoDict] at h2
            | cons g gs' =>
              obtain ⟨k2, v2⟩ := g
              simp only [sameTopoDict, Bool.and_eq_true] at h1 h2 ⊢
              refine ⟨⟨?_, ih (k, v) (by simp) v1 v2 h1.1.2 h2.1.2⟩,
                      ihe (fun x hx => ih x (by simp [hx])) fs' h1.2 gs' h2.2⟩
              have e1 := beq_iff_eq.mp h1.1.1
              have e2 := beq_iff_eq.mp h2.1.1
              simp [e1, e2]

theorem length_treeFlatten_of_sameTopo {α β : Type} :
    ∀ (s : Struct α) (t : Struct β), sameTopo s t = true →
      (treeFlatten s).length = (treeFlatten t).length := by
  intro s
  induction s using structInd with
  | hleaf a => intro t h; cases t <;> simp_all [sameTopo, treeFlatten]
  | htup ts ih =>
    intro t h
    cases t with
    | leaf b => simp [sameTopo] at h
    | dict fs => simp [sameTopo] at h
    | tup us =>
      simp only [sameTopo] at h
      simp only [treeFlatten]
      induction ts generalizing us with
      | nil => cases us with
        | nil => rfl
        | cons u us' => simp [sameTopoTup] at h
      | cons t ts iht =>
        cases us with
        | nil => simp [sameTopoTup] at h
        | cons u us' =>
          simp only [sameTopoTup, Bool.and_eq_true] at h
          simp only [flattenTup, List.length_append]
          rw [ih t (by simp) u h.1, iht (fun x hx => ih x (by simp [hx])) us' h.2]
  | hdict es ih =>
    intro t h
    cases t with
    | leaf b => simp [sameTopo] at h
    | tup us => simp [sameTopo] at h
    | dict fs =>
      simp only [sameTopo] at h
      simp only [treeFlatten]
      induction es generalizing fs with
      | nil => cases fs with
        | nil => rfl
        | cons g fs' => simp [sameTopoDict] at h
      | cons e es ihe =>
        obtain ⟨k, v⟩ := e
        cases fs with
        | nil => simp [sameTopoDict] at h
        | cons g fs' =>
          obtain ⟨k', v'⟩ := g
          simp only [sameTopoDict, Bool.and_eq_true] at h
          simp only [flattenDict, List.length_append]
          rw [ih (k, v) (by simp) v' h.1.2, ihe (fun x hx => ih x (by simp [hx])) fs' h.2]

theorem unflattenAux_flatten_append {α β : Type} :
    ∀ (s : Struct α) (t : Struct β) (r : List β), sameTopo s t = true →
      unflattenAux s (treeFlatten t ++ r) = .ok (t, r) := by
  intro s
  induction s using structInd with
  | hleaf a =>
    intro t r h
    cases t with
    | leaf b => simp [treeFlatten, unflattenAux]
    | tup us => simp [sameTopo] at h
    | dict fs => simp [sameTopo] at h
  | htup ts ih =>
    intro t r h
    cases t with
    | leaf b => simp [sameTopo] at h
    | dict fs => simp [sameTopo] at h
    | tup us =>
      simp only [sameTopo] at h
      simp only [treeFlatten, unflattenAux]
      suffices hh : unflattenTup ts (flattenTup us ++ r) = .ok (us, r) by rw [hh]
      induction ts generalizing us r with
      | nil =>
        cases us with
        | nil => simp [flattenTup, unflattenTup]
        | cons u us' => simp [sameTopoTup] at h
      | cons t ts iht =>
        cases us with
        | nil => simp [sameTopoTup] at h
        | cons u us' =>
          simp only [sameTopoTup, Bool.and_eq_true] at h
          simp only [flattenTup, List.append_assoc, unflattenTup,
            ih t (by simp) u (flattenTup us' ++ r) h.1,
            iht (fun x hx => ih x (by simp [hx])) r us' h.2]
  | hdict es ih =>
    intro t r h
    cases t with
    | leaf b => simp [sameTopo] at h
    | tup us => simp [sameTopo] at h
    | dict fs =>
      simp only [sameTopo] at h
      simp only [treeFlatten, unflattenAux]
      suffices hh : unflattenDict es (flattenDict fs ++ r) = .ok (fs, r) by rw [hh]
      induction es generalizing fs r with
      | nil =>
        cases fs with
        | nil => simp [flattenDict, unflattenDict]
        | cons g fs' => simp [sameTopoDict] at h
      | cons e es ihe =>
        obtain ⟨k, v⟩ := e
        cases fs with
        | nil => simp [sameTopoDict] at h
        | cons g fs' =>
          obtain ⟨k', v'⟩ := g
          simp only [sameTopoDict, Bool.and_eq_true] at h
          obtain rfl : k = k' := beq_iff_eq.mp h.1.1
          simp only [flattenDict, List.append_assoc, unflattenDict,
            ih (k, v) (by simp) v' (flattenDict fs' ++ r) h.1.2,
            ihe (fun x hx => ih x (by simp [hx])) r fs' h.2]

/-- tree.unflatten_as rebuilds exactly the structure whose flattening was
passed in, whenever the template has the same topology. -/
theorem unflattenAs_flatten {α β : Type} (s : Struct α) (t : Struct β)
    (h : sameTopo s t = true) : unflattenAs s (treeFlatten t) = .ok t := by
  have := unflattenAux_flatten_append s t [] h
  simp only [List.append_nil] at this
  simp [unflattenAs, this]

theorem unflattenAux_of_le_length {α β : Type} :
    ∀ (s : Struct α) (xs : List β), (treeFlatten s).length ≤ xs.length →
      ∃ t, unflattenAux s xs = .ok (t, xs.drop (treeFlatten s).length) ∧
        treeFlatten t = xs.take (treeFlatten s).length ∧ sameTopo s t = true := by
  intro s
  induction s using structInd with
  | hleaf a =>
    intro xs hlen
    cases xs with
    | nil => simp [treeFlatten] at hlen
    | cons x r =>
      exact ⟨.leaf x, by simp [treeFlatten, unflattenAux], by simp [treeFlatten], by simp [sameTopo]⟩
  | htup ts ih =>
    intro xs hlen
    simp only [treeFlatten] at hlen ⊢
    suffices hh : ∃ us, unflattenTup ts xs = .ok (us, xs.drop (flattenTup ts).length) ∧
        flattenTup us = xs.take (flattenTup ts).length ∧ sameTopoTup ts us = true by
      obtain ⟨us, h1, h2, h3⟩ := hh
      exact ⟨.tup us, by simp [unflattenAux, h1], by simp [treeFlatten, h2], by simp [sameTopo, h3]⟩
    induction ts generalizing xs with
    | nil => exact ⟨[], by simp [unflattenTup, flattenTup], by simp [flattenTup], by simp [sameTopoTup]⟩
    | cons t ts iht =>
      simp only [flattenTup, List.length_append] at hlen ⊢
      obtain ⟨u, hu1, hu2, hu3⟩ := ih t (by simp) xs (by omega)
      obtain ⟨us, hus1, hus2, hus3⟩ := iht (fun x hx => ih x (by simp [hx]))
        (xs.drop (treeFlatten t).length) (by simp; omega)
      refine ⟨u :: us, ?_, ?_, ?_⟩
      · simp only [unflattenTup, hu1, hus1, List.drop_drop]
      · simp only [flattenTup, hu2, hus2, List.take_add]
      · simp [sameTopoTup, hu3, hus3]
  | hdict es ih =>
    intro xs hlen
    simp only [treeFlatten] at hlen ⊢
    suffices hh : ∃ fs, unflattenDict es xs = .ok (fs, xs.drop (flattenDict es).length) ∧
        flattenDict fs = xs.take (flattenDict es).length ∧ sameTopoDict es fs = true by
      obtain ⟨fs, h1, h2, h3⟩ := hh
      exact ⟨.dict fs, by simp [unflattenAux, h1], by simp [treeFlatten, h2], by simp [sameTopo, h3]⟩
    induction es generalizing xs with
    | nil => exact ⟨[], by simp [unflattenDict, flattenDict], by simp [flattenDict], by simp [sameTopoDict]⟩
    | cons e es ihe =>
      obtain ⟨k, v⟩ := e
      simp only [flattenDict, List.length_append] at hlen ⊢
      have ihv := ih (k, v) (by simp)
      dsimp only at ihv
      obtain ⟨u, hu1, hu2, hu3⟩ := ihv xs (by omega)
      obtain ⟨fs, hfs1, hfs2, hfs3⟩ := ihe (fun x hx => ih x (by simp [hx]))
        (xs.drop (treeFlatten v).length) (by simp; omega)
      refine ⟨(k, u) :: fs, ?_, ?_, ?_⟩
      · simp only [unflattenDict, hu1, hfs1, List.drop_drop]
      · simp only [flattenDict, hu2, hfs2]
        rw [List.take_add]
      · simp [sameTopoDict, hu3, hfs3]

/-- tree.unflatten_as succeeds on any leaf list of exactly the right length,
and the result flattens back to that list with the template topology. -/
theorem unflattenAs_of_length {α β : Type} (s : Struct α) (xs : List β)
    (h : (treeFlatten s).length = xs.length) :
    ∃ t, unflattenAs s xs = .ok t ∧ treeFlatten t = xs ∧ sameTopo s t = true := by
  obtain ⟨t, h1, h2, h3⟩ := unflattenAux_of_le_length s xs (by omega)
  refine ⟨t, ?_, ?_, h3⟩
  · simp [unflattenAs, h1, h, List.drop_length]
  · simpa [h, List.take_length] using h2

theorem unflattenAux_error_eq {α β : Type} :
    ∀ (s : Struct α) (xs : List β) (e : Err),
      unflattenAux s xs = .error e → e = .arityMismatch := by
  intro s
  induction s using structInd with
  | hleaf a =>
    intro xs e h
    cases xs with
    | nil => simp [unflattenAux] at h; exact h.symm
    | cons x r => simp [unflattenAux] at h
  | htup ts ih =>
    have hh : ∀ (ys : List β) (e' : Err), unflattenTup ts ys = .error e' → e' = .arityMismatch := by
      induction ts with
      | nil => intro ys e' hx; simp [unflattenTup] at hx
      | cons t ts iht =>
        intro ys e' hx
        simp only [unflattenTup] at hx
        cases h2 : unflattenAux t ys with
        | ok p =>
          obtain ⟨u, r⟩ := p
          simp only [h2] at hx
          cases h3 : unflattenTup ts r with
          | ok q => obtain ⟨us, r'⟩ := q; simp [h3] at hx
          | error e2 =>
            simp only [h3, Except.error.injEq] at hx
            exact hx ▸ iht (fun x hx2 => ih x (by simp [hx2])) r e2 h3
        | error e2 =>
          simp only [h2, Except.error.injEq] at hx
          exact hx ▸ ih t (by simp) ys e2 h2
    intro xs e h
    simp only [unflattenAux] at h
    cases h2 : unflattenTup ts xs with
    | ok p => obtain ⟨us, r⟩ := p; simp [h2] at h
    | error e' =>
      simp only [h2, Except.error.injEq] at h
      exact h ▸ hh xs e' h2
  | hdict es ih =>
    have hh : ∀ (ys : List β) (e' : Err), unflattenDict es ys = .error e' → e' = .arityMismatch := by
      induction es with
      | nil => intro ys e' hx; simp [unflattenDict] at hx
      | cons g es ihe =>
        obtain ⟨k, v⟩ := g
        intro ys e' hx
        simp only [unflattenDict] at hx
        cases h2 : unflattenAux v ys with
        | ok p =>
          obtain ⟨u, r⟩ := p
          simp only [h2] at hx
          cases h3 : unflattenDict es r with
          | ok q => obtain ⟨ps, r'⟩ := q; simp [h3] at hx
          | error e2 =>
            simp only [h3, Except.error.injEq] at hx
            exact hx ▸ ihe (fun x hx2 => ih x (by simp [hx2])) r e2 h3
        | error e2 =>
          simp only [h2, Except.error.injEq] at hx
          exact hx ▸ ih (k, v) (by simp) ys e2 h2
    intro xs e h
    simp only [unflattenAux] at h
    cases h2 : unflattenDict es xs with
    | ok p => obtain ⟨ps, r⟩ := p; simp [h2] at h
    | error e' =>
      simp only [h2, Except.error.injEq] at h
      exact h ▸ hh xs e' h2

theorem unflattenAs_error_eq {α β : Type} (s : Struct α) (xs : List β) (e : Err)
    (h : unflattenAs s xs = .error e) : e = .arityMismatch := by
  simp only [unflattenAs] at h
  cases h2 : unflattenAux s xs with
  | ok p =>
    obtain ⟨t, r⟩ := p
    simp only [h2] at h
    cases r with
    | nil => simp at h
    | cons x r' => simp at h; exact h.symm
  | error e' =>
    simp only [h2, Except.error.injEq] at h
    exact h ▸ unflattenAux_error_eq s xs e' h2

/-! ## List helper lemmas for the Except monad and python zip -/

theorem except_bind_ok {β γ : Type} (b : β) (f : β → Except Err γ) :
    (Except.ok b >>= f) = f b := rfl

theorem except_bind_error {β γ : Type} (e : Err) (f : β → Except Err γ) :
    ((Except.error e : Except Err β) >>= f) = .error e := rfl

theorem mapM_ok_of_all {α β : Type} (f : α → Except Err β) (g : α → β) :
    ∀ l : List α, (∀ x ∈ l, f x = .ok (g x)) → l.mapM f = .ok (l.map g) := by
  intro l h
  induction l with
  | nil => rfl
  | cons a l ih =>
    rw [List.mapM_cons, h a (by simp), ih (fun x hx => h x (by simp [hx]))]
    rfl

theorem mapM_error_mem {α β : Type} (f : α → Except Err β) :
    ∀ (l : List α) (e : Err), l.mapM f = .error e → ∃ x ∈ l, f x = .error e := by
  intro l
  induction l with
  | nil => intro e h; exact Except.noConfusion h
  | cons a l ih =>
    intro e h
    rw [List.mapM_cons] at h
    cases h1 : f a with
    | ok b =>
      rw [h1, except_bind_ok] at h
      cases h2 : l.mapM f with
      | ok bs => rw [h2] at h; exact Except.noConfusion h
      | error e' =>
        rw [h2, except_bind_error] at h
        have he : e' = e := by injection h
        obtain ⟨x, hx1, hx2⟩ := ih e' h2
        exact ⟨x, by simp [hx1], he ▸ hx2⟩
    | error e' =>
      rw [h1, except_bind_error] at h
      have he : e' = e := by injection h
      exact ⟨a, by simp, he ▸ h1⟩

theorem map_getD_range {α : Type} (l : List α) (d : α) :
    (List.range l.length).map (fun j => l.getD j d) = l := by
  induction l with
  | nil => simp
  | cons a l ih =>
    rw [List.length_cons, List.range_succ_eq_map, List.map_cons, List.map_map]
    congr 1

/-- The heads and tails of a list of lists; fails when any list is empty.
This models one step of python zip over several iterators. -/
def takeHeads {α : Type} : List (List α) → Option (List α × List (List α))
  | [] => some ([], [])
  | [] :: _ => none
  | (x :: xs) :: r =>
    match takeHeads r with
    | some (hs, ts) => some (x :: hs, xs :: ts)
    | none => none

/-- Worker for python zip: walk the first list, pairing with heads of the
rest, stopping at the shortest list. -/
def zipGo {α : Type} : List α → List (List α) → List (List α)
  | [], _ => []
  | x :: xs, rest =>
    match takeHeads rest with
    | some (hs, ts) => (x :: hs) :: zipGo xs ts
    | none => []

/-- Python zip(*ls): the list of columns of the given rows, truncated at the
shortest row. -/
def zipN {α : Type} : List (List α) → List (List α)
  | [] => []
  | l :: rest => zipGo l rest

theorem takeHeads_eq {α : Type} (d : α) :
    ∀ ls : List (List α), (∀ l ∈ ls, l ≠ []) →
      takeHeads ls = some (ls.map (fun l => l.headD d), ls.map List.tail) := by
  intro ls h
  induction ls with
  | nil => simp [takeHeads]
  | cons l rest ih =>
    cases l with
    | nil => exact absurd rfl (h [] (by simp))
    | cons y ys =>
      simp only [takeHeads, ih (fun x hx => h x (by simp [hx])), List.map_cons]
      rfl

theorem zipN_eq {α : Type} (d : α) :
    ∀ (L : ℕ) (ls : List (List α)), ls ≠ [] → (∀ l ∈ ls, l.length = L) →
      zipN ls = (List.range L).map (fun j => ls.map (fun l => l.getD j d)) := by
  intro L
  induction L with
  | zero =>
    intro ls hne hlen
    cases ls with
    | nil => exact absurd rfl hne
    | cons l0 rest =>
      have h0 : l0 = [] := List.eq_nil_of_length_eq_zero (hlen l0 (by simp))
      subst h0
      simp [zipN, zipGo]
  | succ L ih =>
    intro ls hne hlen
    cases ls with
    | nil => exact absurd rfl hne
    | cons l0 rest =>
      cases l0 with
      | nil => have := hlen [] (by simp); simp at this
      | cons x xs =>
        have hrest : ∀ l ∈ rest, l ≠ [] := by
          intro l hl hcon
          have := hlen l (by simp [hl])
          rw [hcon] at this
          simp at this
        have hxs : xs.length = L := by have := hlen (x :: xs) (by simp); simpa using this
        have htails : ∀ l ∈ (xs :: rest.map List.tail), l.length = L := by
          intro l hl
          rcases List.mem_cons.mp hl with h | h
          · subst h; exact hxs
          · obtain ⟨l', hl', rfl⟩ := List.mem_map.mp h
            have := hlen l' (by simp [hl'])
            cases l' with
            | nil => simp at this
            | cons y ys => simpa using this
        have hzip := ih (xs :: rest.map List.tail) (by simp) htails
        rw [zipN] at hzip
        rw [zipN, zipGo]
        simp only [takeHeads_eq d rest hrest]
        rw [hzip]
        rw [List.range_succ_eq_map, List.map_cons, List.map_map]
        congr 1
        · simp only [List.map_cons, List.getD_cons_zero]
          congr 1
          refine (List.map_congr_left (fun l hl => ?_)).symm
          cases l with
          | nil => exact absurd rfl (hrest [] hl)
          | cons y ys => simp
        · refine List.map_congr_left (fun j hj => ?_)
          simp only [Function.comp, List.map_cons, List.map_map, List.getD_cons_succ]
          congr 1
          refine List.map_congr_left (fun l hl => ?_)
          cases l with
          | nil => exact absurd rfl (hrest [] hl)
          | cons y ys => simp

/-! ## batch and unbatch -/

/-- A numpy array as handed to batch: the value together with the python type
information of whether it is a BatchedNdArray (the marker subclass whose
presence indicates an existing leading batch dim). -/
structure NdA : Type where
  arr : Arr
  batched : Bool
deriving Repr

/-- np.stack(arrs, axis=0): requires at least one input and identical shapes,
and adds a new leading axis of the number of inputs. -/
def stackArrs : List Arr → Except Err Arr
  | [] => .error .leafShapeMismatch
  | a :: rest =>
    if rest.all (fun b => shapeA b == shapeA a) then .ok (.vec (a :: rest))
    else .error .leafShapeMismatch

/-- np.concatenate(arrs, axis=0): requires at least one input, every input at
least 1-d and of equal trailing shape; joins the inputs along axis 0. -/
def concatArrs : List Arr → Except Err Arr
  | [] => .error .typeError
  | a :: rest =>
    match (a :: rest).mapM (fun x => match x with | .vec xs => some xs | .scalar _ => none) with
    | none => .error .typeError
    | some xss =>
      if rest.all (fun b => (shapeA b).tail == (shapeA a).tail) then .ok (.vec xss.flatten)
      else .error .leafShapeMismatch

/-- The accepted values of the keyword individual_items_already_have_batch_dim
(False, True, or the string auto). -/
inductive BatchDimFlag : Type where
  | no
  | yes
  | auto
deriving DecidableEq, Repr

/-- dm_tree map_structure over several structures: checks that every structure
shares the topology of the first, zips their flattened leaves positionally,
applies f to every leaf tuple, and packs the results into the topology of the
first structure. -/
def mapStructureN {α β : Type} (f : List α → Except Err β) (ss : List (Struct α)) :
    Except Err (Struct β) :=
  match ss with
  | [] => .error .structureMismatch
  | s0 :: rest =>
    if rest.all (fun s => sameTopo s0 s) then
      match (zipN ((s0 :: rest).map treeFlatten)).mapM f with
      | .ok vals => unflattenAs s0 vals
      | .error e => .error e
    else .error .structureMismatch

/-- space_utils.batch: converts a list of per-item structures into one
structure of stacked (or, for pre-batched items, concatenated) leaf arrays.
np.ascontiguousarray is the identity on values. -/
def batch (listOfStructs : List (Struct NdA)) (flag : BatchDimFlag) :
    Except Err (Struct Arr) :=
  match listOfStructs with
  | [] => .error .emptyBatch
  | s0 :: rest =>
    let resolved : Except Err Bool :=
      match flag with
      | .auto =>
        match treeFlatten s0 with
        | [] => .error .indexError
        | x :: _ => .ok x.batched
      | .yes => .ok true
      | .no => .ok false
    match resolved with
    | .error e => .error e
    | .ok useConcat =>
      mapStructureN
        (fun vals =>
          if useConcat then concatArrs (vals.map NdA.arr) else stackArrs (vals.map NdA.arr))
        (s0 :: rest)

/-- len(arr): the size of axis 0; len of a 0-d array raises TypeError. -/
def lenA : Arr → Except Err ℕ
  | .scalar _ => .error .typeError
  | .vec xs => .ok xs.length

/-- arr[i]: basic integer indexing along axis 0; an out-of-range index raises
IndexError, as does indexing a 0-d array. -/
def indexA : Arr → ℕ → Except Err Arr
  | .scalar _, _ => .error .indexError
  | .vec xs, i =>
    match xs.get? i with
    | some a => .ok a
    | none => .error .indexError

/-- space_utils.unbatch: slices every flattened leaf of the batched structure
at each index below the length of the first flattened leaf and rebuilds one
structure per index. -/
def unbatch (batchesStruct : Struct Arr) : Except Err (List (Struct Arr)) :=
  match treeFlatten batchesStruct with
  | [] => .error .indexError
  | fb0 :: fbs =>
    match lenA fb0 with
    | .error e => .error e
    | .ok b =>
      (List.range b).mapM (fun pos =>
        match (fb0 :: fbs).mapM (fun l => indexA l pos) with
        | .ok row => unflattenAs batchesStruct row
        | .error e => .error e)

/-! ## gymnasium spaces and the action transforms -/

/-- The numpy dtypes the action transforms distinguish. -/
inductive DType : Type where
  | float32
  | float64
  | int32
  | int64
deriving DecidableEq, Repr

/-- np.issubdtype(dtype, np.integer). -/
def isIntDT : DType → Bool
  | .int32 => true
  | .int64 => true
  | _ => false

/-- A gymnasium Box space with elementwise-uniform scalar bounds. -/
structure BoxS : Type where
  low : F
  high : F
  shape : List ℕ
  dtype : DType
deriving DecidableEq, Repr

/-- numpy bounded_below of a Box: -inf < low elementwise. -/
def boundedBelow (b : BoxS) : Bool :=
  match b.low with
  | .ninf => false
  | .nan => false
  | _ => true

/-- numpy bounded_above of a Box: high < inf elementwise. -/
def boundedAbove (b : BoxS) : Bool :=
  match b.high with
  | .pinf => false
  | .nan => false
  | _ => true

/-- A primitive (non-composite) gymnasium space. -/
inductive PrimSpace : Type where
  | box (b : BoxS)
  | discrete (n : ℕ) (start : ℤ)
  | multiDiscrete (nvec : List ℕ)
deriving DecidableEq, Repr

/-- The numpy shape of a sample of a primitive space. -/
def shapeP : PrimSpace → List ℕ
  | .box b => b.shape
  | .discrete _ _ => []
  | .multiDiscrete nvec => [nvec.length]

/-- dm_tree map_structure over two structures with a total leaf function (the
action-structure / space-structure zip used by the action transforms). -/
def mapStructure2 {α β γ : Type} (f : α → β → γ) (s : Struct α) (t : Struct β) :
    Except Err (Struct γ) :=
  if sameTopo s t then
    unflattenAs s (List.zipWith f (treeFlatten s) (treeFlatten t))
  else .error .structureMismatch

/-- The leaf function of clip_action: Box components are clipped elementwise
to the bounds of the space, every other component passes through. -/
def clipLeaf (a : F) (s : PrimSpace) : F :=
  match s with
  | .box b => clipF a b.low b.high
  | _ => a

/-- space_utils.clip_action. -/
def clip_action (action : Struct F) (actionSpaceStruct : Struct PrimSpace) :
    Except Err (Struct F) :=
  mapStructure2 clipLeaf action actionSpaceStruct

/-- The leaf function of unsquash_action: for a Box bounded on both sides,
float32/float64 values are mapped from the assumed interval of -1 to 1 onto
the bounds and clipped, integer values are shifted by low; everything else
passes through. -/
def unsquashLeaf (a : F) (s : PrimSpace) : F :=
  match s with
  | .box b =>
    if boundedBelow b && boundedAbove b then
      if b.dtype = .float32 ∨ b.dtype = .float64 then
        clipF (addF b.low (divF (mulF (addF a (.fin 1)) (subF b.high b.low)) (.fin 2)))
          b.low b.high
      else if isIntDT b.dtype then addF b.low a
      else a
    else a
  | _ => a

/-- space_utils.unsquash_action. -/
def unsquash_action (action : Struct F) (actionSpaceStruct : Struct PrimSpace) :
    Except Err (Struct F) :=
  mapStructure2 unsquashLeaf action actionSpaceStruct

/-- The leaf function of normalize_action: float32/float64 Box components are
mapped through ((a - low) * 2) / (high - low) - 1, everything else passes
through.  Note that no boundedness test is made here. -/
def normalizeLeaf (a : F) (s : PrimSpace) : F :=
  match s with
  | .box b =>
    if b.dtype = .float32 ∨ b.dtype = .float64 then
      subF (divF (mulF (subF a b.low) (.fin 2)) (subF b.high b.low)) (.fin 1)
    else a
  | _ => a

/-- space_utils.normalize_action. -/
def normalize_action (action : Struct F) (actionSpaceStruct : Struct PrimSpace) :
    Except Err (Struct F) :=
  mapStructure2 normalizeLeaf action actionSpaceStruct

/-! ## Composite gymnasium spaces, flatten_space, get_dummy_batch_for_space -/

/-- Insert a key-value pair into a key-sorted list (ascending keys). -/
def insPair {γ : Type} (x : String × γ) : List (String × γ) → List (String × γ)
  | [] => [x]
  | y :: ys => if x.1 ≤ y.1 then x :: y :: ys else y :: insPair x ys

/-- Sort a key-value list by ascending key (python sorted over dict keys). -/
def sortPairs {γ : Type} (l : List (String × γ)) : List (String × γ) :=
  l.foldr insPair []

theorem sizeOf_insPair {γ : Type} [SizeOf γ] (x : String × γ) :
    ∀ l : List (String × γ), sizeOf (insPair x l) = 1 + sizeOf x + sizeOf l := by
  intro l
  induction l with
  | nil => simp [insPair]
  | cons y ys ih =>
    simp only [insPair]
    by_cases h : x.1 ≤ y.1
    · simp [h]
    · simp [h, ih]
      omega

theorem sizeOf_sortPairs {γ : Type} [SizeOf γ] (l : List (String × γ)) :
    sizeOf (sortPairs l) = sizeOf l := by
  induction l with
  | nil => rfl
  | cons y ys ih =>
    simp only [sortPairs, List.foldr_cons] at ih ⊢
    rw [sizeOf_insPair]
    simp [ih]

theorem mem_insPair {γ : Type} (x : String × γ) (a : String × γ) :
    ∀ l : List (String × γ), a ∈ insPair x l ↔ a = x ∨ a ∈ l := by
  intro l
  induction l with
  | nil => simp [insPair]
  | cons y ys ih =>
    simp only [insPair]
    by_cases h : x.1 ≤ y.1
    · simp [h]
    · simp [h, ih]
      tauto

theorem mem_sortPairs {γ : Type} (a : String × γ) :
    ∀ l : List (String × γ), a ∈ sortPairs l ↔ a ∈ l := by
  intro l
  induction l with
  | nil => simp [sortPairs]
  | cons y ys ih =>
    simp only [sortPairs, List.foldr_cons] at ih ⊢
    rw [mem_insPair]
    simp [ih]

/-- A gymnasium space: primitive leaves and Dict / Tuple composites. -/
inductive GSpace : Type where
  | prim (p : PrimSpace)
  | dict (es : List (String × GSpace))
  | tup (ts : List GSpace)
deriving Repr

/-- Structural induction principle for GSpace with membership hypotheses. -/
def gspaceInd {motive : GSpace → Prop}
    (hprim : ∀ p, motive (.prim p))
    (hdict : ∀ es, (∀ e ∈ es, motive e.2) → motive (.dict es))
    (htup : ∀ ts, (∀ t ∈ ts, motive t) → motive (.tup ts)) :
    ∀ s, motive s
  | .prim p => hprim p
  | .dict es => hdict es (fun e he => gspaceInd hprim hdict htup e.2)
  | .tup ts => htup ts (fun t ht => gspaceInd hprim hdict htup t)
termination_by s => sizeOf s
decreasing_by
  · have := List.sizeOf_lt_of_mem he
    obtain ⟨k, v⟩ := e
    simp only [GSpace.dict.sizeOf_spec, Prod.mk.sizeOf_spec] at *
    omega
  · have := List.sizeOf_lt_of_mem ht
    simp only [GSpace.tup.sizeOf_spec]
    omega

/-- is_composite_space restricted to the modelled spaces: Dict and Tuple
nodes hold other spaces, primitive spaces do not. -/
def isCompositeNode : GSpace → Bool
  | .dict _ => true
  | .tup _ => true
  | .prim _ => false

mutual
/-- The helper of flatten_space: walks the space depth first (tuple elements
in positional order, dict keys in ascending sorted order) appending every
non-composite space to the accumulator list, exactly as the python helper
appends to its return_list. -/
def helperFlatten : GSpace → List GSpace → List GSpace
  | .prim p, acc => acc ++ [.prim p]
  | .tup ts, acc => helperFlattenTup ts acc
  | .dict es, acc => helperFlattenDict (sortPairs es) acc
termination_by s _ => sizeOf s
decreasing_by
  · simp only [GSpace.tup.sizeOf_spec]
    omega
  · rw [sizeOf_sortPairs]
    simp only [GSpace.dict.sizeOf_spec]
    omega
/-- helperFlatten over tuple elements. -/
def helperFlattenTup : List GSpace → List GSpace → List GSpace
  | [], acc => acc
  | s :: ss, acc => helperFlattenTup ss (helperFlatten s acc)
termination_by ss _ => sizeOf ss
decreasing_by
  all_goals simp only [List.cons.sizeOf_spec]
  all_goals omega
/-- helperFlatten over already-sorted dict entries. -/
def helperFlattenDict : List (String × GSpace) → List GSpace → List GSpace
  | [], acc => acc
  | (_, v) :: es, acc => helperFlattenDict es (helperFlatten v acc)
termination_by es _ => sizeOf es
decreasing_by
  all_goals simp only [List.cons.sizeOf_spec, Prod.mk.sizeOf_spec]
  all_goals omega
end

/-- space_utils.flatten_space. -/
def flatten_space (space : GSpace) : List GSpace :=
  helperFlatten space []

mutual
/-- Modelled from the spec: the canonical leaf sequence of a space - a depth
first traversal in canonical order (tuple positions ascending, dict keys
sorted ascending) collecting every non-composite space. -/
def canonicalLeaves : GSpace → List GSpace
  | .prim p => [.prim p]
  | .tup ts => canonicalLeavesTup ts
  | .dict es => canonicalLeavesDict (sortPairs es)
termination_by s => sizeOf s
decreasing_by
  · simp only [GSpace.tup.sizeOf_spec]
    omega
  · rw [sizeOf_sortPairs]
    simp only [GSpace.dict.sizeOf_spec]
    omega
/-- canonicalLeaves over tuple elements. -/
def canonicalLeavesTup : List GSpace → List GSpace
  | [] => []
  | s :: ss => canonicalLeaves s ++ canonicalLeavesTup ss
termination_by ss => sizeOf ss
decreasing_by
  all_goals simp only [List.cons.sizeOf_spec]
  all_goals omega
/-- canonicalLeaves over already-sorted dict entries. -/
def canonicalLeavesDict : List (String × GSpace) → List GSpace
  | [] => []
  | (_, v) :: es => canonicalLeaves v ++ canonicalLeavesDict es
termination_by es => sizeOf es
decreasing_by
  all_goals simp only [List.cons.sizeOf_spec, Prod.mk.sizeOf_spec]
  all_goals omega
end

mutual
/-- Whether the space contains at least one primitive leaf. -/
def hasLeafG : GSpace → Bool
  | .prim _ => true
  | .tup ts => hasLeafGTup ts
  | .dict es => hasLeafGDict es
/-- hasLeafG over tuple elements. -/
def hasLeafGTup : List GSpace → Bool
  | [] => false
  | s :: ss => hasLeafG s || hasLeafGTup ss
/-- hasLeafG over dict entries. -/
def hasLeafGDict : List (String × GSpace) → Bool
  | [] => false
  | (_, v) :: es => hasLeafG v || hasLeafGDict es
end

/-- The fill_value argument of get_dummy_batch_for_space: a literal numeric
fill or the string random. -/
inductive Fill : Type where
  | value (q : ℚ)
  | random
deriving DecidableEq, Repr

/-- The one_hot_discrete reinterpretation of a primitive space: Discrete and
MultiDiscrete become float32 Boxes on the unit interval of one-hot width. -/
def oneHotTransform : PrimSpace → PrimSpace
  | .discrete n _ => .box ⟨.fin 0, .fin 1, [n], .float32⟩
  | .multiDiscrete nvec => .box ⟨.fin 0, .fin 1, [nvec.sum], .float32⟩
  | p => p

/-- The primitive-space branch of get_dummy_batch_for_space.  The sample
argument abstracts space.sample() (the rng); the literal-fill branch never
calls it.  The assert batch_size > 0 and time_size > 0 of the source is the
InvalidBatchTimeCombination failure. -/
def dummyLeaf (sample : PrimSpace → Arr) (p0 : PrimSpace) (batchSize : ℕ) (fill : Fill)
    (timeSize : Option ℕ) (timeMajor oneHot : Bool) : Except Err Arr :=
  let p := if oneHot then oneHotTransform p0 else p0
  match fill with
  | .random =>
    match timeSize with
    | some t =>
      if 0 < batchSize ∧ 0 < t then
        if timeMajor then
          .ok (.vec (List.replicate t (.vec (List.replicate batchSize (sample p)))))
        else
          .ok (.vec (List.replicate batchSize (.vec (List.replicate t (sample p)))))
      else .error .invalidBatchTimeCombination
    | none =>
      if 0 < batchSize then .ok (.vec (List.replicate batchSize (sample p)))
      else .ok (sample p)
  | .value q =>
    match timeSize with
    | some t =>
      if 0 < batchSize ∧ 0 < t then
        .ok (mkFull ((if timeMajor then [t, batchSize] else [batchSize, t]) ++ shapeP p) q)
      else .error .invalidBatchTimeCombination
    | none => .ok (mkFull ((if 0 < batchSize then [batchSize] else []) ++ shapeP p) q)

mutual
/-- space_utils.get_dummy_batch_for_space: composite spaces recurse over
their base struct leaf by leaf, primitive spaces build one dummy array. -/
def get_dummy_batch_for_space (sample : PrimSpace → Arr) (batchSize : ℕ) (fill : Fill)
    (timeSize : Option ℕ) (timeMajor oneHot : Bool) : GSpace → Except Err (Struct Arr)
  | .prim p =>
    match dummyLeaf sample p batchSize fill timeSize timeMajor oneHot with
    | .ok a => .ok (.leaf a)
    | .error e => .error e
  | .tup ts =>
    match dummyBatchTup sample batchSize fill timeSize timeMajor oneHot ts with
    | .ok us => .ok (.tup us)
    | .error e => .error e
  | .dict es =>
    match dummyBatchDict sample batchSize fill timeSize timeMajor oneHot es with
    | .ok ps => .ok (.dict ps)
    | .error e => .error e
/-- get_dummy_batch_for_space over tuple elements. -/
def dummyBatchTup (sample : PrimSpace → Arr) (batchSize : ℕ) (fill : Fill)
    (timeSize : Option ℕ) (timeMajor oneHot : Bool) :
    List GSpace → Except Err (List (Struct Arr))
  | [] => .ok []
  | s :: ss =>
    match get_dummy_batch_for_space sample batchSize fill timeSize timeMajor oneHot s with
    | .ok u =>
      match dummyBatchTup sample batchSize fill timeSize timeMajor oneHot ss with
      | .ok us => .ok (u :: us)
      | .error e => .error e
    | .error e => .error e
/-- get_dummy_batch_for_space over dict entries. -/
def dummyBatchDict (sample : PrimSpace → Arr) (batchSize : ℕ) (fill : Fill)
    (timeSize : Option ℕ) (timeMajor oneHot : Bool) :
    List (String × GSpace) → Except Err (List (String × Struct Arr))
  | [] => .ok []
  | (k, v) :: es =>
    match get_dummy_batch_for_space sample batchSize fill timeSize timeMajor oneHot v with
    | .ok u =>
      match dummyBatchDict sample batchSize fill timeSize timeMajor oneHot es with
      | .ok ps => .ok ((k, u) :: ps)
      | .error e => .error e
    | .error e => .error e
end

/-! ## Helper lemmas about the map-structure wrappers -/

theorem mapStructure2_leaf {α β γ : Type} (f : α → β → γ) (a : α) (s : β) :
    mapStructure2 f (.leaf a) (.leaf s) = .ok (.leaf (f a s)) := rfl

/-- With a total leaf function, map_structure over two same-topology
structures succeeds and returns a structure of the same topology. -/
theorem mapStructure2_ok {α β γ : Type} (f : α → β → γ) (s : Struct α) (t : Struct β)
    (h : sameTopo s t = true) :
    ∃ r, mapStructure2 f s t = .ok r ∧ sameTopo s r = true := by
  have hlen := length_treeFlatten_of_sameTopo s t h
  have hz : (List.zipWith f (treeFlatten s) (treeFlatten t)).length = (treeFlatten s).length := by
    simp [List.length_zipWith, hlen]
  obtain ⟨r, h1, h2, h3⟩ := unflattenAs_of_length s (List.zipWith f (treeFlatten s) (treeFlatten t)) hz.symm
  exact ⟨r, by simp [mapStructure2, h, h1], h3⟩

/-! ## Claim theorems -/

/-- C2, counterexample: the source shifts only integer-dtype Box leaves.  At
a Discrete(5, start=3) descriptor leaf the action value 2 passes through
unchanged, whereas the claim predicts low + a = 5. -/
theorem claim_C2_counterexample :
    unsquash_action (.leaf (F.fin 2)) (.leaf (.discrete 5 3)) = .ok (.leaf (F.fin 2)) ∧
      F.fin 2 ≠ F.fin 5 := by
  constructor
  · rfl
  · decide

/-- C2, amended: unsquash shifts the leaf value by low exactly at leaves
whose descriptor is a Box bounded on both sides with integer dtype; leaves
whose descriptor is Discrete or MultiDiscrete pass through unchanged. -/
theorem claim_C2_unsquash_integer_shift (a : F) (b : BoxS) (n : ℕ) (st : ℤ) (nvec : List ℕ)
    (hb : boundedBelow b = true) (ha : boundedAbove b = true) (hint : isIntDT b.dtype = true) :
    unsquash_action (.leaf a) (.leaf (.box b)) = .ok (.leaf (addF b.low a)) ∧
    unsquash_action (.leaf a) (.leaf (.discrete n st)) = .ok (.leaf a) ∧
    unsquash_action (.leaf a) (.leaf (.multiDiscrete nvec)) = .ok (.leaf a) := by
  have hnf : ¬(b.dtype = DType.float32 ∨ b.dtype = DType.float64) := by
    cases hd : b.dtype <;> simp_all [isIntDT]
  refine ⟨?_, rfl, rfl⟩
  rw [unsquash_action, mapStructure2_leaf]
  simp [unsquashLeaf, hb, ha, hnf, hint]

theorem claim_C2_witness :
    unsquash_action (.leaf (F.fin 2)) (.leaf (.box ⟨F.fin 3, F.fin 9, [], .int64⟩)) =
      .ok (.leaf (F.fin 5)) := by
  have h := claim_C2_unsquash_integer_shift (F.fin 2) ⟨F.fin 3, F.fin 9, [], .int64⟩ 1 0 []
    (by decide) (by decide) (by decide)
  have h2 : addF (F.fin 3) (F.fin 2) = F.fin 5 := by
    simp [addF]
    norm_num
  rw [h2] at h
  exact h.1

/-- C3, counterexample: normalize tests only Box plus floating dtype, not
boundedness.  At an unbounded float32 Box leaf the value 0 is mapped through
the formula (yielding NaN by inf arithmetic), not returned unchanged. -/
theorem claim_C3_counterexample :
    normalize_action (.leaf (F.fin 0)) (.leaf (.box ⟨F.ninf, F.pinf, [], .float32⟩)) =
      .ok (.leaf F.nan) ∧ F.nan ≠ F.fin 0 := by
  constructor
  · rfl
  · decide

/-- C3, amended: normalize maps a leaf through ((a - low) * 2) / (high - low)
  - 1 exactly when the descriptor is a Box of floating dtype, whether or not
its range is bounded; non-floating Box leaves and Discrete / MultiDiscrete
leaves pass through unchanged. -/
theorem claim_C3_normalize_formula (a : F) (b : BoxS) (n : ℕ) (st : ℤ) (nvec : List ℕ) :
    (b.dtype = .float32 ∨ b.dtype = .float64 →
      normalize_action (.leaf a) (.leaf (.box b)) =
        .ok (.leaf (subF (divF (mulF (subF a b.low) (.fin 2)) (subF b.high b.low)) (.fin 1)))) ∧
    (isIntDT b.dtype = true → normalize_action (.leaf a) (.leaf (.box b)) = .ok (.leaf a)) ∧
    normalize_action (.leaf a) (.leaf (.discrete n st)) = .ok (.leaf a) ∧
    normalize_action (.leaf a) (.leaf (.multiDiscrete nvec)) = .ok (.leaf a) := by
  refine ⟨?_, ?_, rfl, rfl⟩
  · intro hf
    rw [normalize_action, mapStructure2_leaf]
    simp [normalizeLeaf, hf]
  · intro hint
    have hnf : ¬(b.dtype = DType.float32 ∨ b.dtype = DType.float64) := by
      cases hd : b.dtype <;> simp_all [isIntDT]
    rw [normalize_action, mapStructure2_leaf]
    simp [normalizeLeaf, hnf]

theorem claim_C3_witness :
    normalize_action (.leaf (F.fin 1)) (.leaf (.box ⟨F.fin 0, F.fin 2, [], .float32⟩)) =
      .ok (.leaf (F.fin 0)) := by
  have h := (claim_C3_normalize_formula (F.fin 1) ⟨F.fin 0, F.fin 2, [], .float32⟩ 1 0 []).1
    (Or.inl rfl)
  have h2 : subF (divF (mulF (subF (F.fin 1) (F.fin 0)) (F.fin 2)) (subF (F.fin 2) (F.fin 0)))
      (F.fin 1) = F.fin 0 := by norm_num [subF, addF, negF, mulF, divF]
  rw [h2] at h
  exact h

/-- C10: clip, normalize and unsquash each succeed on an action structure of
the same topology as the descriptor structure, and return a structure of the
same topology as the input action (dm_tree rebuilds the output in the shape
of the first argument; the leaf functions are total). -/
theorem claim_C10_transforms_preserve_topology (act : Struct F) (sp : Struct PrimSpace)
    (h : sameTopo act sp = true) :
    (∃ r, clip_action act sp = .ok r ∧ sameTopo act r = true) ∧
    (∃ r, normalize_action act sp = .ok r ∧ sameTopo act r = true) ∧
    (∃ r, unsquash_action act sp = .ok r ∧ sameTopo act r = true) :=
  ⟨mapStructure2_ok clipLeaf act sp h, mapStructure2_ok normalizeLeaf act sp h,
    mapStructure2_ok unsquashLeaf act sp h⟩

theorem claim_C10_witness :
    (∃ r, clip_action (.dict [("a", .leaf (F.fin 7)), ("b", .tup [.leaf (F.fin 0)])])
        (.dict [("a", .leaf (.box ⟨F.fin 0, F.fin 1, [], .float32⟩)), ("b", .tup [.leaf (.discrete 2 0)])]) = .ok r ∧
      sameTopo (Struct.dict [("a", Struct.leaf (F.fin 7)), ("b", Struct.tup [Struct.leaf (F.fin 0)])]) r = true) ∧
    (∃ r, normalize_action (.dict [("a", .leaf (F.fin 7)), ("b", .tup [.leaf (F.fin 0)])])
        (.dict [("a", .leaf (.box ⟨F.fin 0, F.fin 1, [], .float32⟩)), ("b", .tup [.leaf (.discrete 2 0)])]) = .ok r ∧
      sameTopo (Struct.dict [("a", Struct.leaf (F.fin 7)), ("b", Struct.tup [Struct.leaf (F.fin 0)])]) r = true) ∧
    (∃ r, unsquash_action (.dict [("a", .leaf (F.fin 7)), ("b", .tup [.leaf (F.fin 0)])])
        (.dict [("a", .leaf (.box ⟨F.fin 0, F.fin 1, [], .float32⟩)), ("b", .tup [.leaf (.discrete 2 0)])]) = .ok r ∧
      sameTopo (Struct.dict [("a", Struct.leaf (F.fin 7)), ("b", Struct.tup [Struct.leaf (F.fin 0)])]) r = true) :=
  claim_C10_transforms_preserve_topology _ _ (by rfl)

/-- C6: the shape assembly rule of get_dummy_batch_for_space at a primitive
descriptor with a literal fill value, in all four batch/time configurations,
together with the concrete scenario of the specification (shape [3,2,1], all
elements 0). -/
theorem claim_C6_dummy_batch_shapes (sample : PrimSpace → Arr) (p : PrimSpace) (q : ℚ)
    (B t : ℕ) (tm : Bool) :
    (0 < B → 0 < t →
      get_dummy_batch_for_space sample B (.value q) (some t) true false (.prim p) =
        .ok (.leaf (mkFull (t :: B :: shapeP p) q)) ∧
      hasShapeA (mkFull (t :: B :: shapeP p) q) (t :: B :: shapeP p) = true ∧
      allEqA (mkFull (t :: B :: shapeP p) q) q = true) ∧
    (0 < B → 0 < t →
      get_dummy_batch_for_space sample B (.value q) (some t) false false (.prim p) =
        .ok (.leaf (mkFull (B :: t :: shapeP p) q)) ∧
      hasShapeA (mkFull (B :: t :: shapeP p) q) (B :: t :: shapeP p) = true ∧
      allEqA (mkFull (B :: t :: shapeP p) q) q = true) ∧
    (0 < B →
      get_dummy_batch_for_space sample B (.value q) none tm false (.prim p) =
        .ok (.leaf (mkFull (B :: shapeP p) q)) ∧
      hasShapeA (mkFull (B :: shapeP p) q) (B :: shapeP p) = true) ∧
    (get_dummy_batch_for_space sample 0 (.value q) none tm false (.prim p) =
      .ok (.leaf (mkFull (shapeP p) q)) ∧
      hasShapeA (mkFull (shapeP p) q) (shapeP p) = true) ∧
    (get_dummy_batch_for_space sample 2 (.value 0) (some 3) true false
        (.prim (.box ⟨F.fin 0, F.fin 1, [1], .float32⟩)) =
      .ok (.leaf (mkFull [3, 2, 1] 0)) ∧
      hasShapeA (mkFull [3, 2, 1] 0) [3, 2, 1] = true ∧
      allEqA (mkFull [3, 2, 1] 0) 0 = true) := by
  refine ⟨?_, ?_, ?_, ?_, ?_, ?_, ?_⟩
  · intro hB ht
    exact ⟨by simp [get_dummy_batch_for_space, dummyLeaf, hB, ht],
      hasShapeA_mkFull _ _, allEqA_mkFull _ _⟩
  · intro hB ht
    exact ⟨by simp [get_dummy_batch_for_space, dummyLeaf, hB, ht],
      hasShapeA_mkFull _ _, allEqA_mkFull _ _⟩
  · intro hB
    exact ⟨by simp [get_dummy_batch_for_space, dummyLeaf, hB], hasShapeA_mkFull _ _⟩
  · exact ⟨by simp [get_dummy_batch_for_space, dummyLeaf], hasShapeA_mkFull _ _⟩
  · simp [get_dummy_batch_for_space, dummyLeaf, shapeP]
  · exact hasShapeA_mkFull _ _
  · exact allEqA_mkFull _ _

theorem claim_C6_witness :
    get_dummy_batch_for_space (fun _ => Arr.scalar 0) 4 (.value (1 / 2)) (some 5) true false
        (.prim (.discrete 7 0)) = .ok (.leaf (mkFull [5, 4] (1 / 2))) ∧
    hasShapeA (mkFull [5, 4] (1 / 2)) [5, 4] = true := by
  have h := (claim_C6_dummy_batch_shapes (fun _ => Arr.scalar 0) (.discrete 7 0) (1 / 2) 4 5
    true).1 (by norm_num) (by norm_num)
  exact ⟨h.1, h.2.1⟩

/-! ### C7: batch raises EmptyBatch exactly on the empty input -/

theorem stackArrs_ne_emptyBatch (vals : List Arr) : stackArrs vals ≠ .error .emptyBatch := by
  cases vals with
  | nil => simp [stackArrs]
  | cons a rest =>
    simp only [stackArrs]
    split <;> simp

theorem concatArrs_ne_emptyBatch (vals : List Arr) : concatArrs vals ≠ .error .emptyBatch := by
  cases vals with
  | nil => simp [concatArrs]
  | cons a rest =>
    simp only [concatArrs]
    cases h : (a :: rest).mapM (fun x => match x with | .vec xs => some xs | .scalar _ => none) with
    | none => simp [h]
    | some xss =>
      simp only [h]
      split <;> simp

theorem mapStructureN_ne_emptyBatch {α β : Type} (f : List α → Except Err β)
    (hf : ∀ xs, f xs ≠ .error .emptyBatch) (ss : List (Struct α)) :
    mapStructureN f ss ≠ .error .emptyBatch := by
  cases ss with
  | nil => simp [mapStructureN]
  | cons s0 rest =>
    simp only [mapStructureN]
    by_cases hall : rest.all (fun s => sameTopo s0 s) = true
    · simp only [hall, if_true]
      cases hm : (zipN ((s0 :: rest).map treeFlatten)).mapM f with
      | ok vals =>
        simp only [hm]
        cases hu : unflattenAs s0 vals with
        | ok r => simp [hu]
        | error e =>
          have he := unflattenAs_error_eq s0 vals e hu
          subst he
          simp [hu]
      | error e =>
        simp only [hm]
        obtain ⟨x, hx1, hx2⟩ := mapM_error_mem f _ e hm
        intro hcon
        simp only [Except.error.injEq] at hcon
        exact hf x (hcon ▸ hx2)
    · simp [hall]

/-- C7: batch fails with EmptyBatch if and only if the input list is empty
(the empty check precedes everything else; no later failure of batch uses
that error). -/
theorem claim_C7_batch_empty_iff (l : List (Struct NdA)) (flag : BatchDimFlag) :
    batch l flag = .error .emptyBatch ↔ l = [] := by
  cases l with
  | nil => simp [batch]
  | cons s0 rest =>
    simp only [List.cons_ne_nil, iff_false]
    cases flag with
    | no =>
      simp only [batch]
      exact mapStructureN_ne_emptyBatch _ (fun xs => by simpa using stackArrs_ne_emptyBatch (xs.map NdA.arr)) _
    | yes =>
      simp only [batch]
      exact mapStructureN_ne_emptyBatch _ (fun xs => by simpa using concatArrs_ne_emptyBatch (xs.map NdA.arr)) _
    | auto =>
      simp only [batch]
      cases hf : treeFlatten s0 with
      | nil => simp
      | cons x fb =>
        refine mapStructureN_ne_emptyBatch _ (fun xs => ?_) _
        by_cases hb : x.batched = true <;>
          simp [hb, stackArrs_ne_emptyBatch (xs.map NdA.arr),
            concatArrs_ne_emptyBatch (xs.map NdA.arr)]

theorem claim_C7_witness :
    (batch ([] : List (Struct NdA)) .no = .error .emptyBatch ↔ ([] : List (Struct NdA)) = []) ∧
    (batch [Struct.leaf (NdA.mk (Arr.scalar 1) false)] .no = .error .emptyBatch ↔
      [Struct.leaf (NdA.mk (Arr.scalar 1) false)] = []) :=
  ⟨claim_C7_batch_empty_iff [] .no,
    claim_C7_batch_empty_iff [Struct.leaf (NdA.mk (Arr.scalar 1) false)] .no⟩

/-! ### C8: time_size with batch_size 0 -/

/-- A space with no primitive leaf produces an (empty-container) dummy batch
without ever reaching a leaf branch, for any argument combination. -/
theorem dummy_ok_of_no_leaf (sample : PrimSpace → Arr) (batchSize : ℕ) (fill : Fill)
    (timeSize : Option ℕ) (timeMajor oneHot : Bool) :
    ∀ space : GSpace, hasLeafG space = false →
      ∃ u, get_dummy_batch_for_space sample batchSize fill timeSize timeMajor oneHot space =
        .ok u := by
  intro space
  induction space using gspaceInd with
  | hprim p => intro h; simp [hasLeafG] at h
  | htup ts ih =>
    intro h
    simp only [hasLeafG] at h
    suffices hh : ∃ us, dummyBatchTup sample batchSize fill timeSize timeMajor oneHot ts = .ok us by
      obtain ⟨us, hus⟩ := hh
      exact ⟨.tup us, by simp [get_dummy_batch_for_space, hus]⟩
    induction ts with
    | nil => exact ⟨[], rfl⟩
    | cons s ss iht =>
      simp only [hasLeafGTup, Bool.or_eq_false_iff] at h
      obtain ⟨u, hu⟩ := ih s (by simp) h.1
      obtain ⟨us, hus⟩ := iht (fun x hx => ih x (by simp [hx])) h.2
      exact ⟨u :: us, by simp [dummyBatchTup, hu, hus]⟩
  | hdict es ih =>
    intro h
    simp only [hasLeafG] at h
    suffices hh : ∃ ps, dummyBatchDict sample batchSize fill timeSize timeMajor oneHot es = .ok ps by
      obtain ⟨ps, hps⟩ := hh
      exact ⟨.dict ps, by simp [get_dummy_batch_for_space, hps]⟩
    induction es with
    | nil => exact ⟨[], rfl⟩
    | cons g es ihe =>
      obtain ⟨k, v⟩ := g
      simp only [hasLeafGDict, Bool.or_eq_false_iff] at h
      obtain ⟨u, hu⟩ := ih (k, v) (by simp) h.1
      obtain ⟨ps, hps⟩ := ihe (fun x hx => ih x (by simp [hx])) h.2
      exact ⟨(k, u) :: ps, by simp [dummyBatchDict, hu, hps]⟩

/-- C8, counterexample: a descriptor without primitive leaves (the empty Dict
space) returns its empty container structure successfully even though
time_size is given together with batch_size = 0 - the recursion applies the
leaf branch per leaf and there is none, so no error is raised. -/
theorem claim_C8_counterexample :
    get_dummy_batch_for_space (fun _ => Arr.scalar 0) 0 (.value 0) (some 3) false false
      (.dict []) = .ok (.dict []) := rfl

/-- C8, amended: for every descriptor containing at least one primitive leaf,
get_dummy_batch_for_space fails with InvalidBatchTimeCombination (the assert
batch_size > 0 and time_size > 0) whenever time_size is provided together
with batch_size = 0, in the literal-fill branch and in the random branch
alike, producing no output. -/
theorem claim_C8_time_with_zero_batch (sample : PrimSpace → Arr) (fill : Fill) (t : ℕ)
    (timeMajor oneHot : Bool) :
    ∀ space : GSpace, hasLeafG space = true →
      get_dummy_batch_for_space sample 0 fill (some t) timeMajor oneHot space =
        .error .invalidBatchTimeCombination := by
  intro space
  induction space using gspaceInd with
  | hprim p =>
    intro h
    cases fill <;> simp [get_dummy_batch_for_space, dummyLeaf]
  | htup ts ih =>
    intro h
    simp only [hasLeafG] at h
    suffices hh : dummyBatchTup sample 0 fill (some t) timeMajor oneHot ts =
        .error .invalidBatchTimeCombination by
      simp [get_dummy_batch_for_space, hh]
    induction ts with
    | nil => simp [hasLeafGTup] at h
    | cons s ss iht =>
      simp only [hasLeafGTup, Bool.or_eq_true] at h
      by_cases hs : hasLeafG s = true
      · have := ih s (by simp) hs
        simp [dummyBatchTup, this]
      · obtain ⟨u, hu⟩ := dummy_ok_of_no_leaf sample 0 fill (some t) timeMajor oneHot s
          (by simpa using hs)
        have hss : hasLeafGTup ss = true := by
          rcases h with h | h
          · exact absurd h hs
          · exact h
        have := iht (fun x hx => ih x (by simp [hx])) hss
        simp [dummyBatchTup, hu, this]
  | hdict es ih =>
    intro h
    simp only [hasLeafG] at h
    suffices hh : dummyBatchDict sample 0 fill (some t) timeMajor oneHot es =
        .error .invalidBatchTimeCombination by
      simp [get_dummy_batch_for_space, hh]
    induction es with
    | nil => simp [hasLeafGDict] at h
    | cons g es ihe =>
      obtain ⟨k, v⟩ := g
      simp only [hasLeafGDict, Bool.or_eq_true] at h
      by_cases hv : hasLeafG v = true
      · have := ih (k, v) (by simp) hv
        simp [dummyBatchDict, this]
      · obtain ⟨u, hu⟩ := dummy_ok_of_no_leaf sample 0 fill (some t) timeMajor oneHot v
          (by simpa using hv)
        have hes : hasLeafGDict es = true := by
          rcases h with h | h
          · exact absurd h hv
          · exact h
        have := ihe (fun x hx => ih x (by simp [hx])) hes
        simp [dummyBatchDict, hu, this]

theorem claim_C8_witness :
    get_dummy_batch_for_space (fun _ => Arr.scalar 0) 0 (.value 0) (some 3) false false
        (.prim (.discrete 2 0)) = .error .invalidBatchTimeCombination ∧
    get_dummy_batch_for_space (fun _ => Arr.scalar 0) 0 .random (some 3) false false
        (.prim (.discrete 2 0)) = .error .invalidBatchTimeCombination :=
  ⟨claim_C8_time_with_zero_batch (fun _ => Arr.scalar 0) (.value 0) 3 false false
      (.prim (.discrete 2 0)) rfl,
    claim_C8_time_with_zero_batch (fun _ => Arr.scalar 0) .random 3 false false
      (.prim (.discrete 2 0)) rfl⟩

/-! ### C9: flatten_space -/

theorem helperFlattenTup_eq (ts : List GSpace)
    (hmem : ∀ s ∈ ts, ∀ acc, helperFlatten s acc = acc ++ canonicalLeaves s) :
    ∀ acc, helperFlattenTup ts acc = acc ++ canonicalLeavesTup ts := by
  induction ts with
  | nil => intro acc; simp [helperFlattenTup, canonicalLeavesTup]
  | cons s ss ih =>
    intro acc
    rw [helperFlattenTup, ih (fun x hx => hmem x (by simp [hx])), hmem s (by simp)]
    simp [canonicalLeavesTup]

theorem helperFlattenDict_eq (ps : List (String × GSpace))
    (hmem : ∀ e ∈ ps, ∀ acc, helperFlatten e.2 acc = acc ++ canonicalLeaves e.2) :
    ∀ acc, helperFlattenDict ps acc = acc ++ canonicalLeavesDict ps := by
  induction ps with
  | nil => intro acc; simp [helperFlattenDict, canonicalLeavesDict]
  | cons g ps ih =>
    obtain ⟨k, v⟩ := g
    intro acc
    rw [helperFlattenDict, ih (fun x hx => hmem x (by simp [hx])), hmem (k, v) (by simp)]
    simp [canonicalLeavesDict]

theorem helperFlatten_eq : ∀ (s : GSpace) (acc : List GSpace),
    helperFlatten s acc = acc ++ canonicalLeaves s := by
  intro s
  induction s using gspaceInd with
  | hprim p => intro acc; rw [helperFlatten, canonicalLeaves]
  | htup ts ih =>
    intro acc
    rw [helperFlatten, canonicalLeaves]
    exact helperFlattenTup_eq ts ih acc
  | hdict es ih =>
    intro acc
    rw [helperFlatten, canonicalLeaves]
    exact helperFlattenDict_eq (sortPairs es)
      (fun e he => ih e ((mem_sortPairs e es).mp he)) acc

theorem canonicalLeavesTup_noncomposite (ts : List GSpace)
    (hmem : ∀ s ∈ ts, ∀ x ∈ canonicalLeaves s, isCompositeNode x = false) :
    ∀ x ∈ canonicalLeavesTup ts, isCompositeNode x = false := by
  induction ts with
  | nil => simp [canonicalLeavesTup]
  | cons s ss ih =>
    intro x hx
    rw [canonicalLeavesTup] at hx
    rcases List.mem_append.mp hx with h | h
    · exact hmem s (by simp) x h
    · exact ih (fun y hy => hmem y (by simp [hy])) x h

theorem canonicalLeavesDict_noncomposite (ps : List (String × GSpace))
    (hmem : ∀ e ∈ ps, ∀ x ∈ canonicalLeaves e.2, isCompositeNode x = false) :
    ∀ x ∈ canonicalLeavesDict ps, isCompositeNode x = false := by
  induction ps with
  | nil => simp [canonicalLeavesDict]
  | cons g ps ih =>
    obtain ⟨k, v⟩ := g
    intro x hx
    rw [canonicalLeavesDict] at hx
    rcases List.mem_append.mp hx with h | h
    · exact hmem (k, v) (by simp) x h
    · exact ih (fun y hy => hmem y (by simp [hy])) x h

theorem canonicalLeaves_noncomposite : ∀ s : GSpace,
    ∀ x ∈ canonicalLeaves s, isCompositeNode x = false := by
  intro s
  induction s using gspaceInd with
  | hprim p =>
    intro x hx
    rw [canonicalLeaves] at hx
    simp at hx
    simp [hx, isCompositeNode]
  | htup ts ih =>
    intro x hx
    rw [canonicalLeaves] at hx
    exact canonicalLeavesTup_noncomposite ts ih x hx
  | hdict es ih =>
    intro x hx
    rw [canonicalLeaves] at hx
    exact canonicalLeavesDict_noncomposite (sortPairs es)
      (fun e he => ih e ((mem_sortPairs e es).mp he)) x hx

/-- C9: flatten_space returns exactly the canonical leaf sequence - the depth
first traversal visiting tuple elements in ascending positional order and
dict keys in ascending sorted order, collecting every non-composite space -
and never emits a Dict or Tuple node. -/
theorem claim_C9_flatten_space (s : GSpace) :
    flatten_space s = canonicalLeaves s ∧
    ∀ x ∈ flatten_space s, isCompositeNode x = false := by
  have h1 : flatten_space s = canonicalLeaves s := by
    rw [flatten_space, helperFlatten_eq]
    simp
  exact ⟨h1, fun x hx => canonicalLeaves_noncomposite s x (h1 ▸ hx)⟩

theorem claim_C9_witness :
    flatten_space (.dict [("b", .prim (.discrete 2 0)),
        ("a", .tup [.prim (.box ⟨F.fin 0, F.fin 1, [1], .float32⟩)])]) =
      canonicalLeaves (.dict [("b", .prim (.discrete 2 0)),
        ("a", .tup [.prim (.box ⟨F.fin 0, F.fin 1, [1], .float32⟩)])]) ∧
    ∀ x ∈ flatten_space (.dict [("b", .prim (.discrete 2 0)),
        ("a", .tup [.prim (.box ⟨F.fin 0, F.fin 1, [1], .float32⟩)])]),
      isCompositeNode x = false :=
  claim_C9_flatten_space _

/-! ### C5: unsquash / normalize round trip on a bounded float Box -/

/-- C5, counterexample: unsquash clips, so the round trip
normalize(unsquash(a)) = a fails for action values outside the interval
-1..1: on the Box [0, 1], unsquash(2) = 1 and normalize(1) = 1, not 2. -/
theorem claim_C5_counterexample :
    unsquash_action (.leaf (F.fin 2)) (.leaf (.box ⟨F.fin 0, F.fin 1, [], .float32⟩)) =
      .ok (.leaf (F.fin 1)) ∧
    normalize_action (.leaf (F.fin 1)) (.leaf (.box ⟨F.fin 0, F.fin 1, [], .float32⟩)) =
      .ok (.leaf (F.fin 1)) ∧
    F.fin 1 ≠ F.fin 2 := by
  refine ⟨?_, ?_, by decide⟩
  · rw [unsquash_action, mapStructure2_leaf]
    norm_num [unsquashLeaf, boundedBelow, boundedAbove, clipF, maxF, minF, addF, subF, negF,
      mulF, divF]
  · rw [normalize_action, mapStructure2_leaf]
    norm_num [normalizeLeaf, addF, subF, negF, mulF, divF]

/-- C5, amended: on a Continuous (Box) leaf with finite bounds low < high and
floating dtype, normalize(unsquash(a)) = a holds exactly for action values a
in the unsquash domain -1..1 (outside it the safety clip of unsquash loses
information), and unsquash(normalize(a)) always lands inside the bounds. -/
theorem claim_C5_roundtrip (l h q : ℚ) (sh : List ℕ) (dt : DType)
    (hdt : dt = .float32 ∨ dt = .float64) (hlh : l < h) :
    ((-1 : ℚ) ≤ q → q ≤ 1 →
      unsquash_action (.leaf (.fin q)) (.leaf (.box ⟨.fin l, .fin h, sh, dt⟩)) =
        .ok (.leaf (.fin (l + (q + 1) * (h - l) / 2))) ∧
      normalize_action (.leaf (.fin (l + (q + 1) * (h - l) / 2)))
          (.leaf (.box ⟨.fin l, .fin h, sh, dt⟩)) = .ok (.leaf (.fin q))) ∧
    (∃ r w : ℚ,
      normalize_action (.leaf (.fin q)) (.leaf (.box ⟨.fin l, .fin h, sh, dt⟩)) =
        .ok (.leaf (.fin r)) ∧
      unsquash_action (.leaf (.fin r)) (.leaf (.box ⟨.fin l, .fin h, sh, dt⟩)) =
        .ok (.leaf (.fin w)) ∧ l ≤ w ∧ w ≤ h) := by
  have hne : h - l ≠ 0 := sub_ne_zero.mpr (ne_of_gt hlh)
  have hne2 : h + -l ≠ 0 := by rw [← sub_eq_add_neg]; exact hne
  have hL : ∀ x : ℚ, unsquashLeaf (.fin x) (.box ⟨.fin l, .fin h, sh, dt⟩) =
      .fin (min (max (l + (x + 1) * (h - l) / 2) l) h) := by
    intro x
    rcases hdt with hdt | hdt <;> subst hdt <;>
      · simp [unsquashLeaf, boundedBelow, boundedAbove, clipF, maxF, minF, addF, subF, negF,
          mulF, divF]
        ring_nf
  have hN : ∀ x : ℚ, normalizeLeaf (.fin x) (.box ⟨.fin l, .fin h, sh, dt⟩) =
      .fin ((x - l) * 2 / (h - l) - 1) := by
    intro x
    rcases hdt with hdt | hdt <;> subst hdt <;>
      · simp [normalizeLeaf, addF, subF, negF, mulF, divF, hne2]
        ring_nf
  constructor
  · intro hq1 hq2
    have hx1 : l ≤ l + (q + 1) * (h - l) / 2 := by nlinarith
    have hx2 : l + (q + 1) * (h - l) / 2 ≤ h := by nlinarith
    constructor
    · rw [unsquash_action, mapStructure2_leaf, hL q, max_eq_left hx1, min_eq_left hx2]
    · rw [normalize_action, mapStructure2_leaf, hN _]
      congr 2
      field_simp
      ring
  · refine ⟨(q - l) * 2 / (h - l) - 1,
      min (max (l + ((q - l) * 2 / (h - l) - 1 + 1) * (h - l) / 2) l) h, ?_, ?_, ?_, ?_⟩
    · rw [normalize_action, mapStructure2_leaf, hN q]
    · rw [unsquash_action, mapStructure2_leaf, hL _]
    · exact le_min (le_max_right _ _) (le_of_lt hlh)
    · exact min_le_right _ _

theorem claim_C5_witness :
    (unsquash_action (.leaf (.fin (1 / 2))) (.leaf (.box ⟨.fin 0, .fin 1, [], .float32⟩)) =
      .ok (.leaf (.fin (0 + ((1 : ℚ) / 2 + 1) * (1 - 0) / 2))) ∧
    normalize_action (.leaf (.fin (0 + ((1 : ℚ) / 2 + 1) * (1 - 0) / 2)))
        (.leaf (.box ⟨.fin 0, .fin 1, [], .float32⟩)) = .ok (.leaf (.fin (1 / 2)))) ∧
    (∃ r w : ℚ,
      normalize_action (.leaf (.fin (1 / 2))) (.leaf (.box ⟨.fin 0, .fin 1, [], .float32⟩)) =
        .ok (.leaf (.fin r)) ∧
      unsquash_action (.leaf (.fin r)) (.leaf (.box ⟨.fin 0, .fin 1, [], .float32⟩)) =
        .ok (.leaf (.fin w)) ∧ (0 : ℚ) ≤ w ∧ w ≤ 1) :=
  ⟨(claim_C5_roundtrip 0 1 (1 / 2) [] .float32 (Or.inl rfl) (by norm_num)).1
      (by norm_num) (by norm_num),
    (claim_C5_roundtrip 0 1 (1 / 2) [] .float32 (Or.inl rfl) (by norm_num)).2⟩

/-! ### C4: unbatch with leaves of unequal leading dimension -/

theorem getD_map_eq {α β : Type} (f : α → β) :
    ∀ (l : List α) (n : ℕ) (d : α), (l.map f).getD n (f d) = f (l.getD n d) := by
  intro l
  induction l with
  | nil => intro n d; simp [List.getD]
  | cons a l ih =>
    intro n d
    cases n with
    | zero => simp
    | succ m => simp [List.getD_cons_succ, ih]

theorem getD_mem_of_lt {α : Type} :
    ∀ (l : List α) (n : ℕ) (d : α), n < l.length → l.getD n d ∈ l := by
  intro l
  induction l with
  | nil => intro n d hn; simp at hn
  | cons a l ih =>
    intro n d hn
    cases n with
    | zero => simp
    | succ m =>
      simp only [List.getD_cons_succ]
      exact List.mem_cons_of_mem a (ih m d (by simpa using hn))

/-- Slicing a whole flattened leaf at a fixed batch position. -/
def sliceAt (pos : ℕ) : Arr → Arr
  | .scalar q => .scalar q
  | .vec w => w.getD pos (.scalar 0)

theorem indexA_vec_lt (w : List Arr) (i : ℕ) (hi : i < w.length) :
    indexA (.vec w) i = .ok (w.getD i (.scalar 0)) := by
  simp only [indexA]
  rw [List.get?_eq_get hi]
  simp [List.getD_eq_getElem?_getD, List.getElem?_eq_getElem hi]

/-- C4, counterexample: unbatch performs no leading-dimension consistency
check.  On a structure whose two leaves have leading dimensions 2 and 3 it
returns a successful, silently truncated result of 2 items (the length of
the first flattened leaf), instead of raising any error. -/
theorem claim_C4_counterexample :
    unbatch (.dict [("a", .leaf (.vec [.scalar 1, .scalar 2])),
        ("b", .leaf (.vec [.scalar 4, .scalar 5, .scalar 6]))]) =
      .ok [.dict [("a", .leaf (.scalar 1)), ("b", .leaf (.scalar 4))],
        .dict [("a", .leaf (.scalar 2)), ("b", .leaf (.scalar 5))]] := rfl

/-- C4, amended: whenever every flattened leaf of the input carries a leading
dimension at least as large as that of the first flattened leaf (length B0),
unbatch succeeds and returns exactly B0 structures, silently truncating the
longer leaves; no InconsistentBatchSize error exists in the code (a shorter
later leaf instead surfaces a plain IndexError). -/
theorem claim_C4_unbatch_truncates (y : Struct Arr) (v0 : List Arr) (vs : List Arr)
    (hflat : treeFlatten y = .vec v0 :: vs)
    (hall : ∀ a ∈ vs, ∃ w, a = Arr.vec w ∧ v0.length ≤ w.length) :
    ∃ out, unbatch y = .ok out ∧ out.length = v0.length := by
  have hmain : ∀ pos ∈ List.range v0.length,
      (fun pos => match (Arr.vec v0 :: vs).mapM (fun l => indexA l pos) with
        | .ok row => unflattenAs y row
        | .error e => .error e) pos =
      .ok ((fun pos => match unflattenAs y ((Arr.vec v0 :: vs).map (sliceAt pos)) with
        | .ok t => t
        | .error _ => y) pos) := by
    intro pos hpos
    have hpos' : pos < v0.length := List.mem_range.mp hpos
    have hrow : (Arr.vec v0 :: vs).mapM (fun l => indexA l pos) =
        .ok ((Arr.vec v0 :: vs).map (sliceAt pos)) := by
      refine mapM_ok_of_all _ (sliceAt pos) _ ?_
      intro x hx
      rcases List.mem_cons.mp hx with hx | hx
      · subst hx
        rw [indexA_vec_lt v0 pos hpos']
        rfl
      · obtain ⟨w, rfl, hw⟩ := hall x hx
        rw [indexA_vec_lt w pos (lt_of_lt_of_le hpos' hw)]
        rfl
    have hlen : (treeFlatten y).length = ((Arr.vec v0 :: vs).map (sliceAt pos)).length := by
      simp [hflat]
    obtain ⟨t, ht1, ht2, ht3⟩ := unflattenAs_of_length y _ hlen
    simp only [hrow, ht1]
  have houter := mapM_ok_of_all _ _ _ hmain
  refine ⟨(List.range v0.length).map (fun pos =>
      match unflattenAs y ((Arr.vec v0 :: vs).map (sliceAt pos)) with
      | .ok t => t
      | .error _ => y), ?_, ?_⟩
  · simp only [unbatch, hflat, lenA]
    exact houter
  · simp

theorem claim_C4_witness :
    ∃ out, unbatch (.tup [.leaf (.vec [.scalar 1]), .leaf (.vec [.scalar 2, .scalar 3])]) =
      .ok out ∧ out.length = 1 := by
  refine claim_C4_unbatch_truncates _ [.scalar 1] [.vec [.scalar 2, .scalar 3]] rfl ?_
  intro a ha
  simp only [List.mem_singleton] at ha
  subst ha
  exact ⟨[.scalar 2, .scalar 3], rfl, by norm_num⟩

/-! ### C1: stack-mode batch / unbatch round trip -/

theorem sameTopo_mapLeaves_right {α β γ : Type} (f : β → γ) (s : Struct α) (t : Struct β) :
    sameTopo s (mapLeaves f t) = true ↔ sameTopo s t = true := by
  constructor
  · intro hh
    have h1 := sameTopo_symm _ _ hh
    rw [sameTopo_mapLeaves_left] at h1
    exact sameTopo_symm _ _ h1
  · intro hh
    have h1 : sameTopo (mapLeaves f t) s = true := by
      rw [sameTopo_mapLeaves_left]
      exact sameTopo_symm _ _ hh
    exact sameTopo_symm _ _ h1

theorem getD_map_lt {α β : Type} (f : α → β) :
    ∀ (l : List α) (n : ℕ), n < l.length → ∀ (d : β) (d' : α),
      (l.map f).getD n d = f (l.getD n d') := by
  intro l
  induction l with
  | nil => intro n hn; simp at hn
  | cons a l ih =>
    intro n hn d d'
    cases n with
    | zero => simp
    | succ m => simp only [List.map_cons, List.getD_cons_succ]; exact ih m (by simpa using hn) d d'

theorem length_pos_of_ne_nil {α : Type} (l : List α) (h : l ≠ []) : 0 < l.length := by
  cases l with
  | nil => exact absurd rfl h
  | cons a l => simp

/-- batch on a non-empty list with the stack flag is the stack map_structure. -/
theorem batch_cons_no (s0 : Struct NdA) (rest : List (Struct NdA)) :
    batch (s0 :: rest) .no =
      mapStructureN (fun vals => stackArrs (vals.map NdA.arr)) (s0 :: rest) := rfl

theorem mapStructureN_cons {α β : Type} (f : List α → Except Err β) (s0 : Struct α)
    (rest : List (Struct α)) :
    mapStructureN f (s0 :: rest) =
      if rest.all (fun s => sameTopo s0 s) then
        match (zipN ((s0 :: rest).map treeFlatten)).mapM f with
        | .ok vals => unflattenAs s0 vals
        | .error e => .error e
      else .error .structureMismatch := rfl

/-- The j-th leaf of the stacked batch of the item list I. -/
def stackedLeaf (I : List (Struct Arr)) (j : ℕ) : Arr :=
  .vec (I.map (fun s => (treeFlatten s).getD j (.scalar 0)))

/-- C1, counterexample: a list of structures without leaves is non-empty,
structurally compatible and trivially free of batch dims, and batch stacks it
into the empty container; but unbatch of that batch raises an IndexError
(flat_batches[0] of an empty flat list) instead of returning the items. -/
theorem claim_C1_counterexample :
    batch [Struct.dict ([] : List (String × Struct NdA))] .no = .ok (.dict []) ∧
    unbatch (.dict []) = .error .indexError := ⟨rfl, rfl⟩

/-- Stack-mode batch on a non-empty list of same-topology items with equal
co-located leaf shapes: it succeeds and the flattened result is the list of
per-position stacked leaves, in a structure of the topology of the first
item. -/
theorem batch_stack_eval (s0 : Struct Arr) (rest : List (Struct Arr))
    (hcompat : ∀ s ∈ s0 :: rest, sameTopo s0 s = true)
    (hshapes : ∀ s ∈ s0 :: rest, (treeFlatten s).map shapeA = (treeFlatten s0).map shapeA)
    (hleaf : treeFlatten s0 ≠ []) :
    ∃ y, batch ((s0 :: rest).map (mapLeaves (fun a => NdA.mk a false))) .no = .ok y ∧
      treeFlatten y = (List.range (treeFlatten s0).length).map (stackedLeaf (s0 :: rest)) ∧
      sameTopo s0 y = true := by
  rw [List.map_cons, batch_cons_no, mapStructureN_cons]
  have hall : (rest.map (mapLeaves (fun a => NdA.mk a false))).all
      (fun s => sameTopo (mapLeaves (fun a => NdA.mk a false) s0) s) = true := by
    rw [List.all_eq_true]
    intro wi hwi
    obtain ⟨si, hsi, rfl⟩ := List.mem_map.mp hwi
    rw [sameTopo_mapLeaves_left]
    exact (sameTopo_mapLeaves_right _ _ _).mpr (hcompat si (by simp [hsi]))
  rw [if_pos hall]
  have hls : ((mapLeaves (fun a => NdA.mk a false) s0) ::
        rest.map (mapLeaves (fun a => NdA.mk a false))).map treeFlatten
      = (s0 :: rest).map (fun s => (treeFlatten s).map (fun a => NdA.mk a false)) := by
    rw [← List.map_cons, List.map_map]
    apply List.map_congr_left
    intro s hs
    simp [Function.comp, treeFlatten_mapLeaves]
  rw [hls]
  have hlen : ∀ l ∈ (s0 :: rest).map (fun s => (treeFlatten s).map (fun a => NdA.mk a false)),
      l.length = (treeFlatten s0).length := by
    intro l hl
    obtain ⟨s, hs, rfl⟩ := List.mem_map.mp hl
    rw [List.length_map]
    exact (length_treeFlatten_of_sameTopo s0 s (hcompat s hs)).symm
  rw [zipN_eq (NdA.mk (Arr.scalar 0) false) (treeFlatten s0).length _ (by simp) hlen]
  have hc1 : ∀ j, ((((s0 :: rest).map (fun s => (treeFlatten s).map (fun a => NdA.mk a false))).map
        (fun l => l.getD j (NdA.mk (Arr.scalar 0) false))).map NdA.arr)
      = (s0 :: rest).map (fun s => (treeFlatten s).getD j (Arr.scalar 0)) := by
    intro j
    simp only [List.map_map]
    apply List.map_congr_left
    intro s hs
    simp only [Function.comp]
    rw [show (NdA.mk (Arr.scalar 0) false) = (fun a => NdA.mk a false) (Arr.scalar 0) from rfl,
      getD_map_eq (fun a => NdA.mk a false) (treeFlatten s) j (Arr.scalar 0)]
  have hstackok : ∀ col ∈ (List.range (treeFlatten s0).length).map
      (fun j => ((s0 :: rest).map (fun s => (treeFlatten s).map (fun a => NdA.mk a false))).map
        (fun l => l.getD j (NdA.mk (Arr.scalar 0) false))),
      stackArrs (col.map NdA.arr) = .ok (.vec (col.map NdA.arr)) := by
    intro col hcolmem
    obtain ⟨j, hj, rfl⟩ := List.mem_map.mp hcolmem
    rw [hc1 j]
    have hsh : ∀ s ∈ rest, shapeA ((treeFlatten s).getD j (Arr.scalar 0)) =
        shapeA ((treeFlatten s0).getD j (Arr.scalar 0)) := by
      intro s hs
      rw [← getD_map_eq shapeA (treeFlatten s) j (Arr.scalar 0),
        ← getD_map_eq shapeA (treeFlatten s0) j (Arr.scalar 0),
        hshapes s (by simp [hs])]
    rw [List.map_cons, stackArrs, if_pos]
    rw [List.all_eq_true]
    intro b hb
    obtain ⟨s, hs, rfl⟩ := List.mem_map.mp hb
    exact beq_iff_eq.mpr (hsh s hs)
  have hmapM := mapM_ok_of_all (fun vals : List NdA => stackArrs (vals.map NdA.arr))
    (fun col : List NdA => Arr.vec (col.map NdA.arr)) _ hstackok
  simp only [hmapM]
  have hvals : ((List.range (treeFlatten s0).length).map
      (fun j => ((s0 :: rest).map (fun s => (treeFlatten s).map (fun a => NdA.mk a false))).map
        (fun l => l.getD j (NdA.mk (Arr.scalar 0) false)))).map (fun col => Arr.vec (col.map NdA.arr))
      = (List.range (treeFlatten s0).length).map (stackedLeaf (s0 :: rest)) := by
    rw [List.map_map]
    apply List.map_congr_left
    intro j hj
    simp only [Function.comp]
    rw [hc1 j]
    rfl
  rw [hvals]
  have hwl : (treeFlatten (mapLeaves (fun a => NdA.mk a false) s0)).length =
      ((List.range (treeFlatten s0).length).map (stackedLeaf (s0 :: rest))).length := by
    rw [treeFlatten_mapLeaves]
    simp
  obtain ⟨y, hy1, hy2, hy3⟩ := unflattenAs_of_length (mapLeaves (fun a => NdA.mk a false) s0)
    ((List.range (treeFlatten s0).length).map (stackedLeaf (s0 :: rest))) hwl
  refine ⟨y, ?_, hy2, ?_⟩
  · exact hy1
  · rw [← sameTopo_mapLeaves_left (fun a => NdA.mk a false) s0 y]
    exact hy3

/-- unbatch of the stacked batch of a non-empty same-topology item list
returns exactly the items. -/
theorem unbatch_stacked (s0 : Struct Arr) (rest : List (Struct Arr)) (y : Struct Arr)
    (hcompat : ∀ s ∈ s0 :: rest, sameTopo s0 s = true)
    (hleaf : treeFlatten s0 ≠ [])
    (hy2 : treeFlatten y = (List.range (treeFlatten s0).length).map (stackedLeaf (s0 :: rest)))
    (hy3 : sameTopo s0 y = true) :
    unbatch y = .ok (s0 :: rest) := by
  have hL : 0 < (treeFlatten s0).length := length_pos_of_ne_nil _ hleaf
  obtain ⟨L', hL'⟩ : ∃ L', (treeFlatten s0).length = L' + 1 :=
    ⟨(treeFlatten s0).length - 1, by omega⟩
  have hback : (List.range (L' + 1)).map (stackedLeaf (s0 :: rest)) =
      stackedLeaf (s0 :: rest) 0 ::
        (List.range L').map (fun j => stackedLeaf (s0 :: rest) (j + 1)) := by
    rw [List.range_succ_eq_map, List.map_cons, List.map_map]
    rfl
  have hconv : treeFlatten y = stackedLeaf (s0 :: rest) 0 ::
      (List.range L').map (fun j => stackedLeaf (s0 :: rest) (j + 1)) := by
    rw [hy2, hL', hback]
  simp only [unbatch, hconv]
  have hlen0 : lenA (stackedLeaf (s0 :: rest) 0) = .ok (s0 :: rest).length := by
    simp [stackedLeaf, lenA]
  simp only [hlen0]
  rw [← hback]
  have hinner : ∀ pos ∈ List.range (s0 :: rest).length,
      (fun pos => match ((List.range (L' + 1)).map (stackedLeaf (s0 :: rest))).mapM
          (fun l => indexA l pos) with
        | .ok row => unflattenAs y row
        | .error e => .error e) pos = .ok ((s0 :: rest).getD pos s0) := by
    intro pos hpos
    have hpos' : pos < (s0 :: rest).length := List.mem_range.mp hpos
    have hrow : ((List.range (L' + 1)).map (stackedLeaf (s0 :: rest))).mapM
        (fun l => indexA l pos)
        = .ok (((List.range (L' + 1)).map (stackedLeaf (s0 :: rest))).map (sliceAt pos)) := by
      refine mapM_ok_of_all _ (sliceAt pos) _ ?_
      intro x hx
      obtain ⟨j, hj, rfl⟩ := List.mem_map.mp hx
      rw [show stackedLeaf (s0 :: rest) j =
        Arr.vec ((s0 :: rest).map (fun s => (treeFlatten s).getD j (.scalar 0))) from rfl]
      rw [indexA_vec_lt _ pos (by simpa using hpos')]
      rfl
    simp only [hrow]
    have hitem : ((List.range (L' + 1)).map (stackedLeaf (s0 :: rest))).map (sliceAt pos)
        = treeFlatten ((s0 :: rest).getD pos s0) := by
      rw [List.map_map]
      rw [List.map_congr_left (fun j hj => by
        simp only [Function.comp, stackedLeaf, sliceAt]
        exact getD_map_lt (fun s => (treeFlatten s).getD j (.scalar 0)) (s0 :: rest) pos hpos'
          (.scalar 0) s0)]
      have hflen : (treeFlatten ((s0 :: rest).getD pos s0)).length = L' + 1 := by
        rw [← hL']
        exact (length_treeFlatten_of_sameTopo s0 _
          (hcompat _ (getD_mem_of_lt _ pos s0 hpos'))).symm
      rw [← hflen]
      exact map_getD_range _ _
    rw [hitem]
    have hst : sameTopo y ((s0 :: rest).getD pos s0) = true :=
      sameTopo_trans y s0 _ (sameTopo_symm _ _ hy3)
        (hcompat _ (getD_mem_of_lt _ pos s0 hpos'))
    exact unflattenAs_flatten y _ hst
  have houter := mapM_ok_of_all _ (fun pos => (s0 :: rest).getD pos s0) _ hinner
  rw [houter]
  rw [show (List.range (s0 :: rest).length).map (fun pos => (s0 :: rest).getD pos s0) =
    s0 :: rest from map_getD_range (s0 :: rest) s0]

/-- C1, amended: for every non-empty list of structurally compatible items
that contain at least one leaf and whose co-located leaves share a shape
(the precondition for np.stack), stack-mode batch succeeds and unbatch of
the result returns exactly the original list. -/
theorem claim_C1_roundtrip (s0 : Struct Arr) (rest : List (Struct Arr))
    (hleaf : treeFlatten s0 ≠ [])
    (hcompat : ∀ s ∈ s0 :: rest, sameTopo s0 s = true)
    (hshapes : ∀ s ∈ s0 :: rest, (treeFlatten s).map shapeA = (treeFlatten s0).map shapeA) :
    ∃ y, batch ((s0 :: rest).map (mapLeaves (fun a => NdA.mk a false))) .no = .ok y ∧
      unbatch y = .ok (s0 :: rest) := by
  obtain ⟨y, h1, h2, h3⟩ := batch_stack_eval s0 rest hcompat hshapes hleaf
  exact ⟨y, h1, unbatch_stacked s0 rest y hcompat hleaf h2 h3⟩

theorem claim_C1_witness :
    ∃ y, batch ([Struct.dict [("a", .leaf (Arr.scalar 1)),
          ("b", .tup [.leaf (Arr.scalar 4), .leaf (Arr.scalar 7)])],
        Struct.dict [("a", .leaf (Arr.scalar 2)),
          ("b", .tup [.leaf (Arr.scalar 5), .leaf (Arr.scalar 8)])]].map
        (mapLeaves (fun a => NdA.mk a false))) .no = .ok y ∧
      unbatch y = .ok [Struct.dict [("a", .leaf (Arr.scalar 1)),
          ("b", .tup [.leaf (Arr.scalar 4), .leaf (Arr.scalar 7)])],
        Struct.dict [("a", .leaf (Arr.scalar 2)),
          ("b", .tup [.leaf (Arr.scalar 5), .leaf (Arr.scalar 8)])]] := by
  refine claim_C1_roundtrip _ _ (fun h => List.noConfusion h) ?_ ?_
  · intro s hs
    rcases List.mem_cons.mp hs with rfl | hs
    · rfl
    · rcases List.mem_cons.mp hs with rfl | hs
      · rfl
      · simp at hs
  · intro s hs
    rcases List.mem_cons.mp hs with rfl | hs
    · rfl
    · rcases List.mem_cons.mp hs with rfl | hs
      · rfl
      · simp at hs

end SpaceUtils
